import Mathlib

/-!
Verification of the Eno resource engine against its specification.

This file gives a shallow embedding of the parts of the Eno codebase that the
claims concern: the resource parser and merge engine
(internal/resource/resource.go), the reconstituter cache fill
(internal/controllers/reconstitution), and the slice lifecycle controller
(internal/controllers/synthesis/slice.go).

JSON values are modelled as a mutual inductive family (objects as ordered
association lists, mirroring the textual form of a manifest; Go map iteration
order corresponds to list order here).  Machine integers are Nat/Int with
explicit reduction mod 2^64 where Go would overflow.  Fallible Go functions
return Except/Option.
-/

namespace Eno

mutual
/-- A JSON value.  Objects keep their fields in textual order. -/
inductive JSON where
  | null
  | bool (b : Bool)
  | num (n : Int)
  | str (s : String)
  | arr (elems : JList)
  | obj (fields : JFields)
deriving DecidableEq, Repr

/-- A list of JSON values (array elements). -/
inductive JList where
  | nil
  | cons (hd : JSON) (tl : JList)
deriving DecidableEq, Repr

/-- An ordered association list of object fields. -/
inductive JFields where
  | nil
  | cons (key : String) (val : JSON) (tl : JFields)
deriving DecidableEq, Repr
end

/-- Length of a JSON array. -/
def JList.length : JList → Nat
  | .nil => 0
  | .cons _ tl => 1 + tl.length

/-- Convert a JSON array to a Lean list. -/
def JList.toList : JList → List JSON
  | .nil => []
  | .cons hd tl => hd :: tl.toList

/-- Build a JSON array from a Lean list. -/
def JList.ofList : List JSON → JList
  | [] => .nil
  | hd :: tl => .cons hd (ofList tl)

/-- Look up a key in an object's field list (first match, as in a Go map with
unique keys). -/
def lookupField : JFields → String → Option JSON
  | .nil, _ => none
  | .cons k v rest, key => if k = key then some v else lookupField rest key

/-- Delete every binding of a key from a field list (Go map delete). -/
def eraseField : JFields → String → JFields
  | .nil, _ => .nil
  | .cons k v rest, key =>
    if k = key then eraseField rest key else .cons k v (eraseField rest key)

/-- Set a key in a field list: replace the first binding in place, or append
at the end when absent (Go map assignment, with textual order preserved). -/
def setField : JFields → String → JSON → JFields
  | .nil, key, v => .cons key v .nil
  | .cons k w rest, key, v =>
    if k = key then .cons k v rest else .cons k w (setField rest key v)

/-- Concatenate two field lists. -/
def appendFields : JFields → JFields → JFields
  | .nil, gs => gs
  | .cons k v rest, gs => .cons k v (appendFields rest gs)

/-- Navigate a path of object keys; some value iff every step goes through an
object that has the key. -/
def getAt : List String → JSON → Option JSON
  | [], j => some j
  | k :: rest, .obj fs =>
    match lookupField fs k with
    | some v => getAt rest v
    | none => none
  | _ :: _, _ => none

/-- True iff the (non-empty) path denotes an existing object field. -/
def isFieldAt (p : List String) (j : JSON) : Bool :=
  !p.isEmpty && (getAt p j).isSome

/-- True iff the path denotes an existing object value. -/
def isObjAt (p : List String) (j : JSON) : Bool :=
  match getAt p j with
  | some (.obj _) => true
  | _ => false

mutual
/-- Remove the field denoted by a path, together with its whole subtree; a
path whose parent chain does not exist leaves the value unchanged
(structured-merge-diff RemoveItems on one field path). -/
def removePath : List String → JSON → JSON
  | p, .obj fs =>
    match p with
    | [] => .obj fs
    | [k] => .obj (eraseField fs k)
    | k :: rest => .obj (removeInFields k rest fs)
  | _, j => j

/-- Apply removePath below every binding of one key. -/
def removeInFields (key : String) (rest : List String) : JFields → JFields
  | .nil => .nil
  | .cons k v tl =>
    if k = key then .cons k (removePath rest v) (removeInFields key rest tl)
    else .cons k v (removeInFields key rest tl)
end

/-- Remove a set of field paths from a value. -/
def removePaths (ps : List (List String)) (j : JSON) : JSON :=
  ps.foldl (fun acc p => removePath p acc) j

/-- Nonempty string as a JSON string at a path (unstructured NestedString:
empty when absent or not a string). -/
def nestedString (p : List String) (j : JSON) : String :=
  match getAt p j with
  | some (.str s) => s
  | _ => ""

/-- Fields of the second list whose key does not occur in the first list,
in order (the fields a diff or merge adds on top of the originals). -/
def addedFields (of : JFields) : JFields → JFields
  | .nil => .nil
  | .cons k v rest =>
    if (lookupField of k).isSome then addedFields of rest
    else .cons k v (addedFields of rest)

mutual
/-- Modelled from the spec: structured-merge-diff typed Merge (library code,
not under src).  "Merge properties that are set in the new state onto the
current state": object fields merge recursively; any other value is replaced
by the new one (the schema is treated as granular structs throughout). -/
def smdMerge : JSON → JSON → JSON
  | .obj cf, n =>
    match n with
    | .obj nf => .obj (appendFields (smdMergeFields cf nf) (addedFields cf nf))
    | _ => n
  | _, n => n

/-- Merge the new fields into each current field (keys of the current object,
updated in place). -/
def smdMergeFields : JFields → JFields → JFields
  | .nil, _ => .nil
  | .cons k v rest, nf =>
    match lookupField nf k with
    | some nv => .cons k (smdMerge v nv) (smdMergeFields rest nf)
    | none => .cons k v (smdMergeFields rest nf)
end

mutual
/-- Modelled from the spec: structured-merge-diff Compare(old, new).Removed
(library code, not under src).  "Compute the fields removed in (old → new)":
the field paths present in the old value but absent from the new one, a path
stopping at the outermost key that disappeared. -/
def removedFields : JSON → JSON → List (List String)
  | .obj of, .obj nf => removedInFields of nf
  | _, _ => []

/-- Removed paths contributed by each old field. -/
def removedInFields : JFields → JFields → List (List String)
  | .nil, _ => []
  | .cons k v rest, nf =>
    (match lookupField nf k with
     | none => [[k]]
     | some nv => (removedFields v nv).map (fun p => k :: p)) ++ removedInFields rest nf
end

mutual
/-- Modelled from the spec: RFC 7396 JSON merge patch application
(evanphx/json-patch MergePatch, library code, not under src).  The first
argument is the patch, the second the target document. -/
def applyMergePatch : JSON → JSON → JSON
  | .obj pf, target =>
    .obj (applyMergeFields pf (match target with | .obj tf => tf | _ => .nil))
  | p, _ => p

/-- Fold merge-patch fields into the target fields: null deletes the key,
anything else merges recursively into the existing value. -/
def applyMergeFields : JFields → JFields → JFields
  | .nil, tf => tf
  | .cons k v rest, tf =>
    match v with
    | .null => applyMergeFields rest (eraseField tf k)
    | _ => applyMergeFields rest (setField tf k (applyMergePatch v ((lookupField tf k).getD .null)))
end

mutual
/-- Modelled from the spec: evanphx/json-patch CreateMergePatch (library
code, not under src) — the RFC 7396 patch transforming the first document
into the second.  Keys only in the first become null, keys only in the
second are added, unequal object values diff recursively, any other unequal
value is replaced. -/
def diffMerge : JSON → JSON → JSON
  | .obj of, .obj mf => .obj (appendFields (diffOldFields of mf) (addedFields of mf))
  | _, m => m

/-- Patch entries contributed by the original document's fields. -/
def diffOldFields : JFields → JFields → JFields
  | .nil, _ => .nil
  | .cons k v rest, mf =>
    match lookupField mf k with
    | none => .cons k .null (diffOldFields rest mf)
    | some mv =>
      if v = mv then diffOldFields rest mf
      else
        match v, mv with
        | .obj a, .obj b =>
          .cons k (.obj (appendFields (diffOldFields a b) (addedFields a b))) (diffOldFields rest mf)
        | _, _ => .cons k mv (diffOldFields rest mf)
end

mutual
/-- Modelled from the spec: apimachinery keepOrDeleteNullInObj (library code,
not under src).  With keep=true retain only null entries (and the nonempty
objects above them); with keep=false drop the null entries. -/
def filterNulls (keep : Bool) : JSON → JSON
  | .obj fs => .obj (filterNullFields keep fs)
  | j => j

/-- Field-list part of filterNulls. -/
def filterNullFields (keep : Bool) : JFields → JFields
  | .nil => .nil
  | .cons k v rest =>
    match v with
    | .null =>
      if keep then .cons k .null (filterNullFields keep rest)
      else filterNullFields keep rest
    | .obj sub =>
      match filterNullFields keep sub with
      | .nil => filterNullFields keep rest
      | sub2 => .cons k (.obj sub2) (filterNullFields keep rest)
    | other =>
      if keep then filterNullFields keep rest
      else .cons k other (filterNullFields keep rest)
end

mutual
/-- Modelled from the spec: apimachinery mergepatch.HasConflicts (library
code, not under src): two patches conflict when they set a common key (or
array position) to different non-mergeable values. -/
def hasConflicts : JSON → JSON → Bool
  | .obj lf, r =>
    match r with
    | .obj rf => fieldsConflict lf rf
    | _ => true
  | .arr ls, r =>
    match r with
    | .arr rs => listsConflict ls rs
    | _ => true
  | l, r => if l = r then false else true

/-- Conflicts between two patch objects' fields. -/
def fieldsConflict : JFields → JFields → Bool
  | .nil, _ => false
  | .cons k v rest, rf =>
    (match lookupField rf k with
     | some rv => hasConflicts v rv
     | none => false) || fieldsConflict rest rf

/-- Elementwise conflicts between two arrays of equal length. -/
def listsConflict : JList → JList → Bool
  | .nil, .nil => false
  | .cons l ls, .cons r rs => hasConflicts l r || listsConflict ls rs
  | _, _ => true
end

/-- JSON array element at an index. -/
def JList.get? : JList → Nat → Option JSON
  | .nil, _ => none
  | .cons hd _, 0 => some hd
  | .cons _ tl, n + 1 => tl.get? n

/-- Replace the element at an index; none when out of range. -/
def JList.set : JList → Nat → JSON → Option JList
  | .nil, _, _ => none
  | .cons _ tl, 0, v => some (.cons v tl)
  | .cons hd tl, n + 1, v => (tl.set n v).map (.cons hd ·)

/-- Insert an element before the given index; none when the index exceeds the
length. -/
def JList.insertAt : JList → Nat → JSON → Option JList
  | l, 0, v => some (.cons v l)
  | .nil, _ + 1, _ => none
  | .cons hd tl, n + 1, v => (tl.insertAt n v).map (.cons hd ·)

/-- Remove the element at an index; none when out of range. -/
def JList.removeAt : JList → Nat → Option JList
  | .nil, _ => none
  | .cons _ tl, 0 => some tl
  | .cons hd tl, n + 1 => (tl.removeAt n).map (.cons hd ·)

/-- Append one element at the end. -/
def JList.append1 : JList → JSON → JList
  | .nil, v => .cons v .nil
  | .cons hd tl, v => .cons hd (tl.append1 v)

/-- Decode one RFC 6901 pointer segment in a single left-to-right pass. -/
def unescapeChars : List Char → List Char
  | [] => []
  | '~' :: '0' :: rest => '~' :: unescapeChars rest
  | '~' :: '1' :: rest => '/' :: unescapeChars rest
  | c :: rest => c :: unescapeChars rest

/-- Split pointer characters on the segment separator. -/
def splitSegs : List Char → List (List Char)
  | [] => [[]]
  | '/' :: rest => [] :: splitSegs rest
  | c :: rest =>
    match splitSegs rest with
    | seg :: segs => (c :: seg) :: segs
    | [] => [[c]]

/-- Modelled from the spec: RFC 6901 JSON pointer parsing as in
evanphx/json-patch (library code, not under src).  The empty pointer denotes
the whole document; any other pointer must start with a slash. -/
def parsePointer (s : String) : Option (List String) :=
  if s = "" then some []
  else
    match s.data with
    | '/' :: rest => some ((splitSegs rest).map (fun seg => String.mk (unescapeChars seg)))
    | _ => none

/-- Array index inside a pointer segment (negative indices unsupported in
this model). -/
def parseArrIdx (s : String) : Option Nat := s.toNat?

/-- Navigate a JSON pointer (objects by key, arrays by index). -/
def getPtr : List String → JSON → Option JSON
  | [], j => some j
  | k :: rest, .obj fs => (lookupField fs k).bind (getPtr rest)
  | k :: rest, .arr xs => (parseArrIdx k).bind (fun i => (xs.get? i).bind (getPtr rest))
  | _, _ => none

/-- RFC 6902 add: set an object key, or insert into an array ("-" appends);
fails when the parent chain is missing. -/
def addAtPtr : List String → JSON → JSON → Option JSON
  | [], v, _ => some v
  | [k], v, .obj fs => some (.obj (setField fs k v))
  | [k], v, .arr xs =>
    if k = "-" then some (.arr (xs.append1 v))
    else (parseArrIdx k).bind fun i => (xs.insertAt i v).map .arr
  | k :: rest, v, .obj fs =>
    (lookupField fs k).bind fun child =>
      (addAtPtr rest v child).map fun c2 => .obj (setField fs k c2)
  | k :: rest, v, .arr xs =>
    (parseArrIdx k).bind fun i =>
      (xs.get? i).bind fun child =>
        (addAtPtr rest v child).bind fun c2 => (xs.set i c2).map .arr
  | _, _, _ => none

/-- RFC 6902 remove: delete an existing key or array element; fails when the
target is missing. -/
def removeAtPtr : List String → JSON → Option JSON
  | [], _ => none
  | [k], .obj fs =>
    if (lookupField fs k).isSome then some (.obj (eraseField fs k)) else none
  | [k], .arr xs => (parseArrIdx k).bind fun i => (xs.removeAt i).map .arr
  | k :: rest, .obj fs =>
    (lookupField fs k).bind fun child =>
      (removeAtPtr rest child).map fun c2 => .obj (setField fs k c2)
  | k :: rest, .arr xs =>
    (parseArrIdx k).bind fun i =>
      (xs.get? i).bind fun child =>
        (removeAtPtr rest child).bind fun c2 => (xs.set i c2).map .arr
  | _, _ => none

/-- RFC 6902 replace: overwrite an existing location. -/
def replaceAtPtr : List String → JSON → JSON → Option JSON
  | [], v, _ => some v
  | [k], v, .obj fs =>
    if (lookupField fs k).isSome then some (.obj (setField fs k v)) else none
  | [k], v, .arr xs => (parseArrIdx k).bind fun i => (xs.set i v).map .arr
  | k :: rest, v, .obj fs =>
    (lookupField fs k).bind fun child =>
      (replaceAtPtr rest v child).map fun c2 => .obj (setField fs k c2)
  | k :: rest, v, .arr xs =>
    (parseArrIdx k).bind fun i =>
      (xs.get? i).bind fun child =>
        (replaceAtPtr rest v child).bind fun c2 => (xs.set i c2).map .arr
  | _, _, _ => none

/-- String field of a patch operation object. -/
def getOpStr (op : JSON) (k : String) : Option String :=
  match op with
  | .obj fs =>
    match lookupField fs k with
    | some (.str s) => some s
    | _ => none
  | _ => none

/-- Value field of a patch operation object (missing field is an error; an
explicit null is a value). -/
def getOpVal (op : JSON) : Option JSON :=
  match op with
  | .obj fs => lookupField fs "value"
  | _ => none

/-- Modelled from the spec: one RFC 6902 operation as applied by
evanphx/json-patch (library code, not under src). -/
def applyOp (doc op : JSON) : Option JSON :=
  match getOpStr op "op" with
  | some "add" =>
    (getOpStr op "path").bind fun p =>
      (parsePointer p).bind fun segs =>
        (getOpVal op).bind fun v => addAtPtr segs v doc
  | some "remove" =>
    (getOpStr op "path").bind fun p =>
      (parsePointer p).bind fun segs => removeAtPtr segs doc
  | some "replace" =>
    (getOpStr op "path").bind fun p =>
      (parsePointer p).bind fun segs =>
        (getOpVal op).bind fun v =>
          (getPtr segs doc).bind fun _ => replaceAtPtr segs v doc
  | some "move" =>
    (getOpStr op "from").bind fun f =>
      (parsePointer f).bind fun fsegs =>
        (getOpStr op "path").bind fun p =>
          (parsePointer p).bind fun segs =>
            (getPtr fsegs doc).bind fun v =>
              (removeAtPtr fsegs doc).bind fun doc2 => addAtPtr segs v doc2
  | some "copy" =>
    (getOpStr op "from").bind fun f =>
      (parsePointer f).bind fun fsegs =>
        (getOpStr op "path").bind fun p =>
          (parsePointer p).bind fun segs =>
            (getPtr fsegs doc).bind fun v => addAtPtr segs v doc
  | some "test" =>
    (getOpStr op "path").bind fun p =>
      (parsePointer p).bind fun segs =>
        (getOpVal op).bind fun v =>
          (getPtr segs doc).bind fun cur => if cur = v then some doc else none
  | _ => none

/-- Apply a whole JSON-Patch (jsonpatch.Patch.Apply): operations in order,
any failure aborts. -/
def applyOps (ops : List JSON) (doc : JSON) : Option JSON :=
  ops.foldl (fun acc op => acc.bind (fun d => applyOp d op)) (some doc)

/-- Modelled from the spec: apimachinery CreateThreeWayJSONMergePatch
(library code, not under src).  The additions/changes patch is the diff from
current to expected with nulls dropped; the deletions patch is the diff from
original to expected keeping only nulls; error on conflict between the two,
else combine them. -/
def createThreeWayMergePatch (original expected current : JSON) : Except String JSON :=
  let addChange := filterNulls false (diffMerge current expected)
  let deletions := filterNulls true (diffMerge original expected)
  if hasConflicts addChange deletions then .error "conflict"
  else .ok (applyMergePatch addChange deletions)

/-- True when the first character list starts the second. -/
def listHasPre : List Char → List Char → Bool
  | [], _ => true
  | _ :: _, [] => false
  | p :: ps, c :: cs => p = c && listHasPre ps cs

/-- strings.HasPrefix. -/
def strHasPre (pre s : String) : Bool := listHasPre pre.data s.data

/-- strings.TrimPrefix. -/
def strTrimPre (pre s : String) : String :=
  if strHasPre pre s then String.mk (s.data.drop pre.data.length) else s

/-- Leading decimal digits of a character list, as a value, with the rest;
none when there is no leading digit. -/
def digitsVal (cs : List Char) : Option (Nat × List Char) :=
  let digits := cs.takeWhile Char.isDigit
  if digits.isEmpty then none
  else some (digits.foldl (fun acc c => acc * 10 + (c.toNat - 48)) 0, cs.dropWhile Char.isDigit)

/-- All-digit nonempty string as a value (the digit part of strconv.Atoi). -/
def digitsOnly (cs : List Char) : Option Nat :=
  match digitsVal cs with
  | some (n, []) => some n
  | _ => none

/-- Modelled from the spec: strconv.Atoi (Go stdlib, not under src):
optional sign then one or more digits, nothing else. -/
def parseAtoi (s : String) : Option Int :=
  match s.data with
  | '-' :: rest => (digitsOnly rest).map (fun n => -(n : Int))
  | '+' :: rest => (digitsOnly rest).map Int.ofNat
  | cs => (digitsOnly cs).map Int.ofNat

/-- Nanoseconds per duration unit (time.ParseDuration unit table). -/
def unitNanos (u : String) : Option Nat :=
  if u = "ns" then some 1
  else if u = "us" then some 1000
  else if u = "µs" then some 1000
  else if u = "ms" then some 1000000
  else if u = "s" then some 1000000000
  else if u = "m" then some 60000000000
  else if u = "h" then some 3600000000000
  else none

/-- One or more integer+unit duration terms, summed (fuel bounds the number
of terms by the input length). -/
def parseTerms : Nat → Nat → List Char → Option Nat
  | 0, _, _ => none
  | _ + 1, acc, [] => some acc
  | fuel + 1, acc, cs =>
    (digitsVal cs).bind fun nr =>
      let ucs := nr.2.takeWhile (fun c => !c.isDigit)
      (unitNanos (String.mk ucs)).bind fun mult =>
        parseTerms fuel (acc + nr.1 * mult) (nr.2.dropWhile (fun c => !c.isDigit))

/-- Modelled from the spec: time.ParseDuration (Go stdlib, not under src):
an optional sign, then the special string 0, or a nonempty sequence of
number+unit terms (fractional terms are not modelled; the claims use only
integral or invalid inputs).  The result is in nanoseconds. -/
def parseDuration (s : String) : Option Int :=
  let signed : Bool × List Char :=
    match s.data with
    | '-' :: rest => (true, rest)
    | '+' :: rest => (false, rest)
    | cs => (false, cs)
  if signed.2 = ['0'] then some 0
  else if signed.2.isEmpty then none
  else (parseTerms (signed.2.length + 1) 0 signed.2).map fun n =>
    if signed.1 then -(n : Int) else (n : Int)

/-- Modelled from the spec: schema.ParseGroupVersion (apimachinery, not under
src): empty string is the empty group/version, no slash means
version-only, one slash splits group/version, more is an error. -/
def parseGroupVersion (s : String) : Option (String × String) :=
  if s = "" then some ("", "")
  else
    match (splitSegs s.data).map String.mk with
    | [v] => some ("", v)
    | [g, v] => some (g, v)
    | _ => none

/-- The FNV-64 offset basis. -/
def fnv64Offset : Nat := 14695981039346656037

/-- The FNV-64 prime. -/
def fnv64Prime : Nat := 1099511628211

/-- FNV-64 (FNV-1, as hash/fnv New64 used by the code): for each byte,
multiply by the prime mod 2^64 then xor the byte. -/
def fnv64 (bytes : List Nat) : Nat :=
  bytes.foldl (fun h b => ((h * fnv64Prime) % 18446744073709551616) ^^^ (b % 256)) fnv64Offset

/-- Bytes of a manifest string.  The manifests in this development are ASCII,
where UTF-8 bytes coincide with code points. -/
def asciiBytes (s : String) : List Nat := s.data.map Char.toNat

/-- schema.GroupVersionKind. -/
structure GVK where
  group : String
  version : String
  kind : String
deriving DecidableEq, Repr

/-- Ref refers to a specific synthesized resource (resource.go Ref). -/
structure Ref where
  name : String
  ns : String
  group : String
  kind : String
deriving DecidableEq, Repr

/-- types.NamespacedName. -/
structure NSN where
  ns : String
  name : String
deriving DecidableEq, Repr

/-- ManifestRef references a particular resource manifest within a resource
slice. -/
structure ManifestRef where
  slice : NSN
  index : Nat
deriving DecidableEq, Repr

/-- A readiness check parsed from an annotation (readiness.Check: a name and
its predicate source). -/
structure ReadinessCheck where
  name : String
  expr : String
deriving DecidableEq, Repr

/-- Resource is the controller's internal representation of a single resource
out of a ResourceSlice (resource.go Resource).  The manifest hash is the
FNV-64 word; a JSON-Patch is a list of raw operation objects, none meaning
the nil patch; a reconcile interval is in nanoseconds, none meaning the nil
pointer. -/
structure Resource where
  ref : Ref
  manifestDeleted : Bool
  manifestRef : ManifestRef
  manifestHash : Nat
  reconcileInterval : Option Int
  gvk : GVK
  readinessChecks : List ReadinessCheck
  patch : Option (List JSON)
  disableUpdates : Bool
  readinessGroup : Int
  labels : Option (List (String × String))
  definedGroupKind : Option (String × String)
  value : JSON
deriving DecidableEq, Repr

/-- apiv1.Synthesis, restricted to the fields the claims touch. -/
structure Synthesis where
  uuid : String
  observedCompositionGeneration : Int
  observedSynthesizerGeneration : Int
  resourceSliceCount : Option Int
  resourceSlices : List String
deriving DecidableEq, Repr

/-- apiv1.Synthesizer, restricted to the fields the claims touch. -/
structure Synthesizer where
  name : String
  generation : Int
deriving DecidableEq, Repr

/-- apiv1.Composition, restricted to the fields the claims touch.  orphan is
the composition's configuration to orphan resources (the input of
ShouldOrphanResources, whose definition is not under src); inputsDiverged
abstracts whether the InputRevisions diverge from a recomputed snapshot over
current bindings (spec 4.4). -/
structure Composition where
  nsn : NSN
  generation : Int
  deletionTimestamp : Option Nat
  orphan : Bool
  synthesizerName : String
  currentSynthesis : Option Synthesis
  previousSynthesis : Option Synthesis
  pendingResynthesis : Option Nat
  inputsDiverged : Bool
deriving DecidableEq, Repr

/-- Modelled from the spec: Composition.ShouldOrphanResources (api code, not
under src) — whether the composition is configured to orphan its resources
on deletion. -/
def shouldOrphanResources (comp : Composition) : Bool := comp.orphan

/-- The minimally-viable placeholder document of
patchSetsDeletionTimestamp. -/
def patchPlaceholder : JSON :=
  .obj (.cons "apiVersion" (.str "eno.azure.io/v1")
    (.cons "kind" (.str "PatchPlaceholder")
      (.cons "metadata" (.obj .nil) .nil)))

/-- resource.go patchSetsDeletionTimestamp: apply the patch to the
placeholder; any apply or re-parse failure yields false, otherwise test for
a nonempty metadata.deletionTimestamp string. -/
def Resource.patchSetsDeletionTimestamp (r : Resource) : Bool :=
  match r.patch with
  | none => false
  | some ops =>
    match applyOps ops patchPlaceholder with
    | none => false
    | some patched =>
      match patched with
      | .obj _ => !(nestedString ["metadata", "deletionTimestamp"] patched == "")
      | _ => false

/-- resource.go Resource.Deleted. -/
def Resource.Deleted (r : Resource) (comp : Composition) : Bool :=
  (comp.deletionTimestamp.isSome && !(shouldOrphanResources comp)) ||
    r.manifestDeleted || (r.patch.isSome && r.patchSetsDeletionTimestamp)

/-- Modelled from the spec: Unstructured.UnmarshalJSON (apimachinery, not
under src) — "the validation logic of the unstructured json parser, which
requires a kind/apiVersion": the document must be a JSON object whose
apiVersion parses and whose resulting kind is a nonempty string. -/
def unmarshalUnstructured (j : JSON) : Option JSON :=
  match j with
  | .obj _ =>
    if (parseGroupVersion (nestedString ["apiVersion"] j)).isSome &&
        !(nestedString ["kind"] j == "") then some j
    else none
  | _ => none

/-- resource.go Resource.NeedsToBePatched: false without a patch or live
object or on any failure while patching, else a semantic comparison of the
patched object with the live one.  (Marshalling the live object cannot fail
in this model.) -/
def Resource.NeedsToBePatched (r : Resource) (current : Option JSON) : Bool :=
  match r.patch, current with
  | some ops, some cur =>
    match applyOps ops cur with
    | none => false
    | some pj =>
      match unmarshalUnstructured pj with
      | none => false
      | some patched => !(patched == cur)
  | _, _ => false

/-- The pluggable schema resolver (resource.go SchemaGetter): for a GVK,
either an error, or an optional type reference (the schema itself carries no
information in this model, which treats every resolved type as granular
structs). -/
def SchemaGetter : Type := GVK → Except String (Option Unit)

/-- Unstructured.GroupVersionKind: parse apiVersion (empty GVK when it does
not parse) and attach the kind. -/
def manifestGVK (j : JSON) : GVK :=
  match parseGroupVersion (nestedString ["apiVersion"] j) with
  | none => ⟨"", "", ""⟩
  | some gv => ⟨gv.1, gv.2, nestedString ["kind"] j⟩

/-- The naive three-way merge for unknown types (resource.go Merge, nil
TypeRef branch): build the RFC 7396 three-way patch from (old, new, current)
— a nil old serializing as the empty object — apply it to current, re-parse,
and skip when the outcome equals the current state. -/
def Resource.mergeSchemaFree (r : Resource) (old : Option Resource) (current : JSON) :
    Except String (Option JSON × Bool) :=
  let prevJS : JSON :=
    match old with
    | some o => o.value
    | none => .obj .nil
  match createThreeWayMergePatch prevJS r.value current with
  | .error e => .error ("building merge patch: " ++ e)
  | .ok patch =>
    match unmarshalUnstructured (applyMergePatch patch current) with
    | none => .error "parsing patched resource"
    | some patched =>
      if patched = current then .ok (none, false)
      else .ok (some patched, false)

/-- The structured merge (resource.go Merge, resolved-type branch): merge the
new state onto the current state, prune the fields that were present in the
old state but not the new, and skip when the outcome compares the same as
the current state. -/
def Resource.mergeTyped (r : Resource) (old : Option Resource) (current : JSON) :
    Except String (Option JSON × Bool) :=
  let merged := smdMerge current r.value
  let pruned :=
    match old with
    | some o => removePaths (removedFields o.value r.value) merged
    | none => merged
  if pruned = current then .ok (none, true)
  else .ok (some pruned, true)

/-- resource.go Resource.Merge: three-way merge between the resource, its
old/previous Resource, and the current state.  Schema lookup errors
propagate; a nil type reference takes the schema-free RFC 7396 path; a
resolved type takes the structured path. -/
def Resource.Merge (r : Resource) (old : Option Resource) (current : JSON) (sg : SchemaGetter) :
    Except String (Option JSON × Bool) :=
  match sg r.gvk with
  | .error e => .error ("looking up schema: " ++ e)
  | .ok none => r.mergeSchemaFree old current
  | .ok (some _) => r.mergeTyped old current

mutual
/-- No-duplicate-keys well-formedness of a JSON value, the invariant of
anything decoded out of Go maps. -/
def wfValue : JSON → Bool
  | .obj fs => wfFields fs
  | .arr xs => wfElems xs
  | _ => true

/-- Distinct keys, each value well-formed. -/
def wfFields : JFields → Bool
  | .nil => true
  | .cons k v tl => !(lookupField tl k).isSome && wfValue v && wfFields tl

/-- Each array element well-formed. -/
def wfElems : JList → Bool
  | .nil => true
  | .cons hd tl => wfValue hd && wfElems tl
end

/-- One entry of ResourceSlice.Spec.Resources (apiv1.Manifest): the manifest
string, together with its JSON decoding (the textual JSON decoder itself is
not modelled; an entry carries the decoded value beside the bytes), and the
Deleted marker. -/
structure ManifestEntry where
  raw : String
  parsed : JSON
  deleted : Bool
deriving DecidableEq, Repr

/-- apiv1.ResourceSlice, restricted to what NewResource reads. -/
structure ResourceSlice where
  name : String
  ns : String
  resources : List ManifestEntry
deriving DecidableEq, Repr

/-- All-string object fields as an association list. -/
def fieldsToStrMap : JFields → Option (List (String × String))
  | .nil => some []
  | .cons k v rest =>
    match v with
    | .str s => (fieldsToStrMap rest).map (fun m => (k, s) :: m)
    | _ => none

/-- Field list of an object at a path when every value is a string
(unstructured NestedStringMap; none when absent or malformed, as for
GetAnnotations / GetLabels returning nil). -/
def stringMapOf (p : List String) (j : JSON) : Option (List (String × String)) :=
  match getAt p j with
  | some (.obj fs) => fieldsToStrMap fs
  | _ => none

/-- First binding of a key in a string map. -/
def lookupStr : List (String × String) → String → Option String
  | [], _ => none
  | (k, v) :: rest, key => if k = key then some v else lookupStr rest key

/-- resource.go pruneMetadata: drop every eno.azure.io/ key; an empty result
becomes the nil map. -/
def pruneMetadata (m : List (String × String)) : List (String × String) :=
  m.filter fun kv => !strHasPre "eno.azure.io/" kv.1

/-- A string map as JSON object fields. -/
def strMapToFields : List (String × String) → JFields
  | [] => .nil
  | (k, v) :: rest => .cons k (.str v) (strMapToFields rest)

/-- Set the value at a path, creating missing object parents (unstructured
setNestedField; a non-object intermediate leaves the document unchanged, as
the ignored Go error does). -/
def setAtCreate : List String → JSON → JSON → JSON
  | [], v, _ => v
  | k :: rest, v, .obj fs =>
    match lookupField fs k with
    | some child => .obj (setField fs k (setAtCreate rest v child))
    | none => .obj (setField fs k (setAtCreate rest v (.obj .nil)))
  | _ :: _, _, j => j

/-- SetAnnotations / SetLabels through pruneMetadata: a nil or empty map
removes the field, any other map is written. -/
def setStrMapAt (p : List String) (m : Option (List (String × String))) (j : JSON) : JSON :=
  match m with
  | none => removePath p j
  | some [] => removePath p j
  | some mm => setAtCreate p (.obj (strMapToFields mm)) j

/-- Array elements when each is an object, as required when decoding
jsonpatch.Patch (a list of raw operation objects). -/
def jlistAllObj : JList → Option (List JSON)
  | .nil => some []
  | .cons hd tl =>
    match hd with
    | .obj _ => (jlistAllObj tl).map (fun l => hd :: l)
    | _ => none

/-- Decode the patch envelope (resource.go patchMeta) out of a Patch
manifest: the embedded patch object's apiVersion and kind strings and its
ops, a missing or null field taking the Go zero value and a type mismatch
failing as json.Unmarshal would. -/
def decodePatchMeta (j : JSON) : Option (String × String × Option (List JSON)) :=
  match j with
  | .obj fs =>
    match lookupField fs "patch" with
    | none => some ("", "", none)
    | some .null => some ("", "", none)
    | some (.obj pf) =>
      (match lookupField pf "apiVersion" with
        | none => some ""
        | some .null => some ""
        | some (.str s) => some s
        | some _ => none).bind fun av =>
      (match lookupField pf "kind" with
        | none => some ""
        | some .null => some ""
        | some (.str s) => some s
        | some _ => none).bind fun kd =>
      (match lookupField pf "ops" with
        | none => some none
        | some .null => some none
        | some (.arr xs) => (jlistAllObj xs).map some
        | some _ => none).map fun ops => (av, kd, ops)
    | some _ => none
  | _ => none

/-- The eno.azure.io/reconcile-interval annotation key. -/
def reconcileIntervalKey : String := "eno.azure.io/reconcile-interval"

/-- The eno.azure.io/disable-updates annotation key. -/
def disableUpdatesKey : String := "eno.azure.io/disable-updates"

/-- The eno.azure.io/readiness-group annotation key. -/
def readinessGroupKey : String := "eno.azure.io/readiness-group"

/-- Modelled from the spec: readiness.ParseCheck (readiness package, not
under src) parses a CEL-like predicate; the expression source is retained
and parsing always succeeds in this model. -/
def parseCheck (expr : String) : Option ReadinessCheck :=
  some { name := "", expr := expr }

/-- The readiness checks gathered from the annotations, before sorting: keys
with the eno.azure.io/readiness prefix other than the readiness-group key,
the name being the key minus the eno.azure.io/readiness- prefix, with the
bare readiness key named default. -/
def buildReadinessChecks (annos : List (String × String)) : List ReadinessCheck :=
  annos.filterMap fun kv =>
    if !(strHasPre "eno.azure.io/readiness" kv.1) || kv.1 = readinessGroupKey then none
    else
      let n := strTrimPre "eno.azure.io/readiness-" kv.1
      let n2 := if n = "eno.azure.io/readiness" then "default" else n
      (parseCheck kv.2).map fun c => { c with name := n2 }

/-- Insert a check into a name-sorted list. -/
def insertCheck (c : ReadinessCheck) : List ReadinessCheck → List ReadinessCheck
  | [] => [c]
  | d :: rest => if c.name < d.name then c :: d :: rest else d :: insertCheck c rest

/-- Sort readiness checks by name (resource.go sort.Slice on check names). -/
def sortChecks : List ReadinessCheck → List ReadinessCheck
  | [] => []
  | c :: rest => insertCheck c (sortChecks rest)

/-- The GVK of eno.azure.io/v1 Patch manifests. -/
def patchGVK : GVK := ⟨"eno.azure.io", "v1", "Patch"⟩

/-- resource.go NewResource: hash the raw manifest, parse and validate it,
prune status and creationTimestamp, decode the optional patch envelope and
CRD metadata, read the policy annotations, and strip eno.azure.io metadata
from the interned value.  (An out-of-range index is an error here where Go
would panic.) -/
def NewResource (slice : ResourceSlice) (index : Nat) : Except String Resource :=
  match slice.resources.get? index with
  | none => .error "index out of range"
  | some m =>
    let hash := fnv64 (asciiBytes m.raw)
    match unmarshalUnstructured m.parsed with
    | none => .error "invalid json"
    | some parsed0 =>
      let parsed := removePath ["metadata", "creationTimestamp"] (removePath ["status"] parsed0)
      let gvk := manifestGVK parsed
      let name := nestedString ["metadata", "name"] parsed
      let nsp := nestedString ["metadata", "namespace"] parsed
      let kind := nestedString ["kind"] parsed
      let apiVersion := nestedString ["apiVersion"] parsed
      if name = "" ∨ kind = "" ∨ apiVersion = "" then .error "missing name, kind, or apiVersion"
      else
        let stepPatch : Except String (GVK × Option (List JSON)) :=
          if gvk = patchGVK then
            match decodePatchMeta m.parsed with
            | none => .error "parsing patch json"
            | some (av, kd, ops) =>
              match parseGroupVersion av with
              | none => .error "parsing patch apiVersion"
              | some gv => .ok (⟨gv.1, gv.2, kd⟩, ops)
          else .ok (gvk, none)
        match stepPatch with
        | .error e => .error e
        | .ok (gvk2, patchOps) =>
          let dgk :=
            if gvk2.group = "apiextensions.k8s.io" ∧ gvk2.kind = "CustomResourceDefinition" then
              some (nestedString ["spec", "group"] parsed, nestedString ["spec", "names", "kind"] parsed)
            else none
          let labels := stringMapOf ["metadata", "labels"] parsed
          let annos := (stringMapOf ["metadata", "annotations"] parsed).getD []
          let ri : Option Int :=
            match lookupStr annos reconcileIntervalKey with
            | none => none
            | some str => some ((parseDuration str).getD 0)
          let rg : Int :=
            match lookupStr annos readinessGroupKey with
            | none => 0
            | some str => (parseAtoi str).getD 0
          let checks := sortChecks (buildReadinessChecks annos)
          let v1 := setStrMapAt ["metadata", "annotations"]
            ((stringMapOf ["metadata", "annotations"] parsed).map pruneMetadata) parsed
          let v2 := setStrMapAt ["metadata", "labels"]
            ((stringMapOf ["metadata", "labels"] parsed).map pruneMetadata) v1
          .ok {
            ref := ⟨name, nsp, gvk.group, kind⟩
            manifestDeleted := m.deleted
            manifestRef := ⟨⟨slice.ns, slice.name⟩, index⟩
            manifestHash := hash
            reconcileInterval := ri
            gvk := gvk2
            readinessChecks := checks
            patch := patchOps
            disableUpdates := lookupStr annos disableUpdatesKey == some "true"
            readinessGroup := rg
            labels := labels
            definedGroupKind := dgk
            value := v2
          }

/-- resource.go Resource.Less: deterministic ordering for conflicting
resources by manifest hash (bytes.Compare on the big-endian FNV-64 digest is
numeric comparison of the hash word). -/
def Resource.Less (r than : Resource) : Bool :=
  r.manifestHash < than.manifestHash

/-- A store read outcome: found, not found, or another error. -/
inductive GetErr where
  | notFound
  | other (msg : String)
deriving DecidableEq, Repr

/-- A work item sent to subscriber queues: one per resource Ref (spec 4.2),
carrying its manifest coordinates and owning composition. -/
structure Request where
  resource : Ref
  manifest : ManifestRef
  composition : NSN
deriving DecidableEq, Repr

/-- Modelled from the spec: the reconstitution cache (cache.go, not under
src), projected to what the claims need: the set of (composition, synthesis
UUID) keys that have been filled. -/
structure CacheState where
  filled : List (NSN × String)
deriving DecidableEq, Repr

/-- Modelled from the spec: cache.HasSynthesis — whether the synthesis is
already cached for the composition. -/
def cacheHasSynthesis (c : CacheState) (comp : NSN) (syn : Synthesis) : Bool :=
  c.filled.contains (comp, syn.uuid)

/-- Turn a list of fallible results into a fallible list. -/
def collectExcept : List (Except String Request) → Except String (List Request)
  | [] => .ok []
  | x :: rest =>
    match x with
    | .error e => .error e
    | .ok r => (collectExcept rest).map (fun l => r :: l)

/-- Requests obtained by parsing every manifest of one slice through
NewResource. -/
def sliceRequests (comp : NSN) (slice : ResourceSlice) : Except String (List Request) :=
  collectExcept ((List.range slice.resources.length).map fun i =>
    (NewResource slice i).map fun r => ⟨r.ref, r.manifestRef, comp⟩)

/-- Requests for all slices of a synthesis, every manifest parsed. -/
def fillRequests (comp : NSN) : List ResourceSlice → Except String (List Request)
  | [] => .ok []
  | slice :: rest =>
    match sliceRequests comp slice with
    | .error e => .error e
    | .ok reqs => (fillRequests comp rest).map (fun l => reqs ++ l)

/-- Modelled from the spec: cache.Fill — parse every manifest in every slice
into a Resource, insert under the synthesis-UUID key, and return one work
item per Ref. -/
def cacheFill (c : CacheState) (comp : NSN) (syn : Synthesis) (slices : List ResourceSlice) :
    Except String (CacheState × List Request) :=
  match fillRequests comp slices with
  | .error e => .error e
  | .ok reqs => .ok ({ filled := (comp, syn.uuid) :: c.filled }, reqs)

/-- Modelled from the spec: cache.Purge — drop the entries of a composition
whose synthesis UUID it no longer references; a deleted composition (none)
drops them all. -/
def cachePurge (c : CacheState) (nsn : NSN) (comp : Option Composition) : CacheState :=
  { filled := c.filled.filter fun kv =>
      if kv.1 = nsn then
        match comp with
        | none => false
        | some c2 =>
          (c2.currentSynthesis.map (fun s => s.uuid) == some kv.2) ||
            (c2.previousSynthesis.map (fun s => s.uuid) == some kv.2)
      else true }

/-- reconstituter.populateCache: nothing to do without a synthesis, a slice
count, or when already cached; a listed-slice count different from the
recorded ResourceSliceCount defers (success, no fill, no enqueue); otherwise
fill the cache and enqueue every request to every registered queue. -/
def populateCache (cache : CacheState) (queues : List Nat) (comp : Composition)
    (syn : Option Synthesis) (listed : List ResourceSlice) :
    Except String (CacheState × List (Nat × Request)) :=
  match syn with
  | none => .ok (cache, [])
  | some s =>
    match s.resourceSliceCount with
    | none => .ok (cache, [])
    | some n =>
      if cacheHasSynthesis cache comp.nsn s then .ok (cache, [])
      else if (listed.length : Int) ≠ n then .ok (cache, [])
      else
        match cacheFill cache comp.nsn s listed with
        | .error e => .error e
        | .ok (c2, reqs) =>
          .ok (c2, (reqs.map (fun req => queues.map (fun q => (q, req)))).flatten)

/-- The reconstituter's state: its cache, the registered subscriber queues
(by identifier), and whether any reconcile has run (the started flag). -/
structure Reconstituter where
  cache : CacheState
  queues : List Nat
  started : Bool
deriving DecidableEq, Repr

/-- reconstituter.AddQueue: register a queue, or panic (none) once any
resource has been reconciled. -/
def addQueue (r : Reconstituter) (q : Nat) : Option Reconstituter :=
  if r.started then none
  else some { r with queues := r.queues ++ [q] }

/-- What one reconstituter reconcile pass reads from the cluster: the
composition, and the slice lists returned for its previous and current
syntheses. -/
structure ReconEnv where
  getComp : Except GetErr Composition
  listedPrev : List ResourceSlice
  listedCur : List ResourceSlice

/-- reconstituter.Reconcile: mark started, fetch the composition (purging on
not-found), populate the cache for the previous then the current synthesis,
then purge stale entries.  Returns the new state, the enqueued items, and
the error if any. -/
def reconstituterReconcile (r : Reconstituter) (env : ReconEnv) (req : NSN) :
    Reconstituter × List (Nat × Request) × Option String :=
  let r1 := { r with started := true }
  match env.getComp with
  | .error .notFound => ({ r1 with cache := cachePurge r1.cache req none }, [], none)
  | .error (.other e) => (r1, [], some ("getting resource: " ++ e))
  | .ok comp =>
    match populateCache r1.cache r1.queues comp comp.previousSynthesis env.listedPrev with
    | .error e => (r1, [], some ("processing previous state: " ++ e))
    | .ok (c2, out1) =>
      match populateCache c2 r1.queues comp comp.currentSynthesis env.listedCur with
      | .error e => ({ r1 with cache := c2 }, out1, some ("processing current state: " ++ e))
      | .ok (c3, out2) =>
        ({ r1 with cache := cachePurge c3 req (some comp) }, out1 ++ out2, none)

/-- Modelled from the spec (4.4, api code not under src): a Composition
needs (re)synthesis iff it has no current synthesis, the current synthesis
observed an older composition or synthesizer generation, the input revisions
diverge, or a resynthesis is already pending. -/
def needsSynthesis (comp : Composition) (syn : Synthesizer) : Bool :=
  match comp.currentSynthesis with
  | none => true
  | some cur =>
    (cur.observedCompositionGeneration < comp.generation) ||
      (cur.observedSynthesizerGeneration < syn.generation) ||
      comp.inputsDiverged ||
      comp.pendingResynthesis.isSome

/-- Modelled from the spec: Composition.NotEligibleForResynthesis (api code,
not under src) — the negation of needing synthesis. -/
def Composition.NotEligibleForResynthesis (comp : Composition) (syn : Synthesizer) : Bool :=
  !needsSynthesis comp syn

/-- What one slice-controller pass reads from the cluster: the composition
named by the request, its synthesizer, each resource slice by name, and the
outcome the status update would have. -/
structure SliceEnv where
  getComp : Except GetErr Composition
  getSynth : Except GetErr Synthesizer
  getSlice : String → Except GetErr Unit
  updateErr : Option String

/-- Walking the current synthesis's slice refs in order: the first not-found
slice, a transient read failure, or all present. -/
inductive SliceLoopOut where
  | missing (name : String)
  | fail (msg : String)
  | allPresent
deriving DecidableEq, Repr

/-- The slice-controller loop over slice references. -/
def sliceLoop (env : SliceEnv) : List String → SliceLoopOut
  | [] => .allPresent
  | n :: rest =>
    match env.getSlice n with
    | .error .notFound => .missing n
    | .error (.other e) => .fail e
    | .ok _ => sliceLoop env rest

/-- The observable outcome of one slice-controller pass: the status updates
written (attempted), and the returned error if any. -/
structure ReconcileOutcome where
  statusWrites : List Composition
  err : Option String
deriving DecidableEq, Repr

/-- The manifest value NewResource interns before annotation pruning: the
parsed document with status and metadata.creationTimestamp removed. -/
def internedBase (m : ManifestEntry) : JSON :=
  removePath ["metadata", "creationTimestamp"] (removePath ["status"] m.parsed)

/-- The annotations NewResource reads (GetAnnotations with the nil map
defaulted to empty). -/
def manifestAnnos (m : ManifestEntry) : List (String × String) :=
  (stringMapOf ["metadata", "annotations"] (internedBase m)).getD []

/-- Convenience constructor for object values in concrete instances. -/
def mkObj (l : List (String × JSON)) : JSON :=
  .obj (l.foldr (fun kv acc => JFields.cons kv.1 kv.2 acc) .nil)

/-- Convenience constructor for concrete Resources in witness instances. -/
def mkRes (gvk : GVK) (value : JSON) (patch : Option (List JSON)) : Resource :=
  { ref := ⟨"x", "", "", ""⟩
    manifestDeleted := false
    manifestRef := ⟨⟨"", ""⟩, 0⟩
    manifestHash := 0
    reconcileInterval := none
    gvk := gvk
    readinessChecks := []
    patch := patch
    disableUpdates := false
    readinessGroup := 0
    labels := none
    definedGroupKind := none
    value := value }

/-- slice.go sliceController.Reconcile: fetch composition (any failure is an
error), fetch synthesizer (not-found returns silently), skip ineligible
compositions, then walk the current synthesis's slices and on the first
missing one write PendingResynthesis=now and stop.  (Go dereferences
CurrentSynthesis unconditionally in the loop; with no current synthesis the
loop body never runs, modelled as the empty list.) -/
def sliceControllerReconcile (env : SliceEnv) (now : Nat) : ReconcileOutcome :=
  match env.getComp with
  | .error .notFound => ⟨[], some "getting composition: not found"⟩
  | .error (.other e) => ⟨[], some ("getting composition: " ++ e)⟩
  | .ok comp =>
    match env.getSynth with
    | .error .notFound => ⟨[], none⟩
    | .error (.other e) => ⟨[], some ("gettting synthesizer: " ++ e)⟩
    | .ok syn =>
      if comp.NotEligibleForResynthesis syn then ⟨[], none⟩
      else
        match sliceLoop env ((comp.currentSynthesis.map (fun s => s.resourceSlices)).getD []) with
        | .missing _ =>
          ⟨[{ comp with pendingResynthesis := some now }],
            env.updateErr.map (fun e => "swapping compisition state: " ++ e)⟩
        | .fail e => ⟨[], some ("getting resource slice: " ++ e)⟩
        | .allPresent => ⟨[], none⟩

/-- A schema resolver that never finds a type. -/
def sgNone : SchemaGetter := fun _ => .ok none

/-- A schema resolver that resolves every type. -/
def sgSome : SchemaGetter := fun _ => .ok (some ())

/-- A schema resolver whose lookup fails. -/
def sgErr : SchemaGetter := fun _ => .error "boom"

/-- A concrete live object equal to the desired state (C1 instances). -/
def curC1 : JSON :=
  mkObj [("apiVersion", .str "v1"), ("kind", .str "ConfigMap"), ("a", .num 1)]

/-- A concrete desired Resource whose value already equals curC1. -/
def resC1 : Resource := mkRes ⟨"", "v1", "ConfigMap"⟩ curC1 none

/-- A previous-synthesis Resource that set spec.a and spec.b (C3 instance). -/
def oldC3 : Resource :=
  mkRes ⟨"", "v1", "ConfigMap"⟩
    (mkObj [("apiVersion", .str "v1"), ("kind", .str "ConfigMap"),
      ("spec", mkObj [("a", .num 1), ("b", .num 2)])]) none

/-- A new-synthesis Resource that no longer mentions spec.a. -/
def newC3 : Resource :=
  mkRes ⟨"", "v1", "ConfigMap"⟩
    (mkObj [("apiVersion", .str "v1"), ("kind", .str "ConfigMap"),
      ("spec", mkObj [("b", .num 2)])]) none

/-- A live object still carrying spec.a plus a foreign field. -/
def curC3 : JSON :=
  mkObj [("apiVersion", .str "v1"), ("kind", .str "ConfigMap"),
    ("spec", mkObj [("a", .num 1), ("b", .num 2), ("foreign", .bool true)])]

/-- A JSON-Patch adding metadata labels (C10 instance). -/
def patchOpsC10 : List JSON :=
  [mkObj [("op", .str "add"), ("path", .str "/metadata/labels"),
    ("value", mkObj [("x", .str "y")])]]

/-- A Resource carrying patchOpsC10. -/
def resC10 : Resource := mkRes ⟨"", "v1", "ConfigMap"⟩ (mkObj []) (some patchOpsC10)

/-- A live object for the C10 instance. -/
def curC10 : JSON :=
  mkObj [("apiVersion", .str "v1"), ("kind", .str "ConfigMap"),
    ("metadata", mkObj [("name", .str "foo")])]

/-- A manifest whose reconcile-interval annotation does not parse (C5). -/
def manC5 : ManifestEntry :=
  { raw := "\x7b\"apiVersion\":\"v1\",\"kind\":\"ConfigMap\",\"metadata\":\x7b\"name\":\"foo\",\"annotations\":\x7b\"eno.azure.io/reconcile-interval\":\"zzz\"\x7d\x7d\x7d"
    parsed := mkObj [("apiVersion", .str "v1"), ("kind", .str "ConfigMap"),
      ("metadata", mkObj [("name", .str "foo"),
        ("annotations", mkObj [("eno.azure.io/reconcile-interval", .str "zzz")])])]
    deleted := false }

/-- The same manifest without the annotation. -/
def manC5b : ManifestEntry :=
  { raw := "\x7b\"apiVersion\":\"v1\",\"kind\":\"ConfigMap\",\"metadata\":\x7b\"name\":\"foo\"\x7d\x7d"
    parsed := mkObj [("apiVersion", .str "v1"), ("kind", .str "ConfigMap"),
      ("metadata", mkObj [("name", .str "foo")])]
    deleted := false }

/-- A slice holding manC5. -/
def sliceC5 : ResourceSlice := { name := "s5", ns := "default", resources := [manC5] }

/-- A slice holding manC5b. -/
def sliceC5b : ResourceSlice := { name := "s5b", ns := "default", resources := [manC5b] }

/-- A manifest without a status field (C6). -/
def manC6a : ManifestEntry :=
  { raw := "\x7b\"apiVersion\":\"v1\",\"kind\":\"ConfigMap\",\"metadata\":\x7b\"name\":\"foo\"\x7d\x7d"
    parsed := mkObj [("apiVersion", .str "v1"), ("kind", .str "ConfigMap"),
      ("metadata", mkObj [("name", .str "foo")])]
    deleted := false }

/-- The same manifest differing only by an empty status field. -/
def manC6b : ManifestEntry :=
  { raw := "\x7b\"apiVersion\":\"v1\",\"kind\":\"ConfigMap\",\"metadata\":\x7b\"name\":\"foo\"\x7d,\"status\":\x7b\x7d\x7d"
    parsed := mkObj [("apiVersion", .str "v1"), ("kind", .str "ConfigMap"),
      ("metadata", mkObj [("name", .str "foo")]), ("status", mkObj [])]
    deleted := false }

/-- A slice holding manC6a. -/
def sliceC6a : ResourceSlice := { name := "s6a", ns := "default", resources := [manC6a] }

/-- A slice holding manC6b. -/
def sliceC6b : ResourceSlice := { name := "s6b", ns := "default", resources := [manC6b] }

/-- A synthesis recording two slices (C7 instance). -/
def synC7 : Synthesis := ⟨"uuid-1", 1, 1, some 2, ["sl-a", "sl-b"]⟩

/-- Its composition. -/
def compC7 : Composition :=
  ⟨⟨"default", "comp"⟩, 1, none, false, "synth", some synC7, none, none, false⟩

/-- A stale informer listing: one slice where two are recorded. -/
def listedC7 : List ResourceSlice := [{ name := "sl-a", ns := "default", resources := [] }]

/-- A synthesizer at generation 1 (C8 instance). -/
def synthC8 : Synthesizer := ⟨"synth", 1⟩

/-- A current synthesis behind the composition generation, referencing one
slice. -/
def synthesisC8 : Synthesis := ⟨"uuid-2", 0, 1, some 1, ["sl-x"]⟩

/-- An eligible composition whose referenced slice is gone. -/
def compC8 : Composition :=
  ⟨⟨"ns", "c"⟩, 1, none, false, "synth", some synthesisC8, none, none, false⟩

/-- The C8 environment: composition and synthesizer found, every slice
missing, status update succeeding. -/
def envC8 : SliceEnv :=
  { getComp := .ok compC8
    getSynth := .ok synthC8
    getSlice := fun _ => .error .notFound
    updateErr := none }

/-- The C10 patch applied to curC10. -/
def patchedC10 : JSON :=
  mkObj [("apiVersion", .str "v1"), ("kind", .str "ConfigMap"),
    ("metadata", mkObj [("name", .str "foo"), ("labels", mkObj [("x", .str "y")])])]



/-- The value NewResource interns: the stripped manifest with eno.azure.io
annotations and labels pruned. -/
def internedValue (m : ManifestEntry) : JSON :=
  setStrMapAt ["metadata", "labels"]
    ((stringMapOf ["metadata", "labels"] (internedBase m)).map pruneMetadata)
    (setStrMapAt ["metadata", "annotations"]
      ((stringMapOf ["metadata", "annotations"] (internedBase m)).map pruneMetadata)
      (internedBase m))

/-- A zero Resource used only as a get-default for concrete instances. -/
def defaultRes : Resource := mkRes ⟨"", "", ""⟩ .null none

/-- The Resource NewResource builds out of sliceC5. -/
def rC5 : Resource := (NewResource sliceC5 0).toOption.getD defaultRes

/-- The Resource NewResource builds out of sliceC6a. -/
def rC6a : Resource := (NewResource sliceC6a 0).toOption.getD defaultRes

/-- The Resource NewResource builds out of sliceC6b. -/
def rC6b : Resource := (NewResource sliceC6b 0).toOption.getD defaultRes

/-- Spine induction for object field lists. -/
theorem JFields.spineInd (motive : JFields → Prop) (hnil : motive .nil)
    (hcons : ∀ k v tl, motive tl → motive (.cons k v tl)) : ∀ fs, motive fs
  | .nil => hnil
  | .cons k v tl => hcons k v tl (spineInd motive hnil hcons tl)

/-- C2 (amended): a schema lookup error propagates out of Merge as an error;
the schema-free fallback runs exactly when the resolver returns a nil type
reference without error, and a resolved type takes the structured path. -/
theorem merge_schema_lookup (r : Resource) (old : Option Resource) (current : JSON)
    (sg : SchemaGetter) :
    (∀ e, sg r.gvk = .error e → r.Merge old current sg = .error ("looking up schema: " ++ e)) ∧
    (sg r.gvk = .ok none → r.Merge old current sg = r.mergeSchemaFree old current) ∧
    (∀ t, sg r.gvk = .ok (some t) → r.Merge old current sg = r.mergeTyped old current) := by
  refine ⟨fun e h => ?_, fun h => ?_, fun t h => ?_⟩ <;> simp [Resource.Merge, h]

/-- C2 (counterexample): with a resolver whose lookup fails, Merge returns
the error instead of falling back to the schema-free path. -/
theorem merge_schema_lookup_failure_cex :
    Resource.Merge resC1 none curC1 sgErr = .error "looking up schema: boom" := rfl

/-- C2 (witness): the amended claim at concrete inputs. -/
theorem merge_schema_lookup_witness :
    Resource.Merge resC1 none curC1 sgErr = .error "looking up schema: boom" ∧
    Resource.Merge resC1 none curC1 sgNone = resC1.mergeSchemaFree none curC1 ∧
    Resource.Merge resC1 none curC1 sgSome = resC1.mergeTyped none curC1 :=
  ⟨(merge_schema_lookup resC1 none curC1 sgErr).1 "boom" rfl,
    (merge_schema_lookup resC1 none curC1 sgNone).2.1 rfl,
    (merge_schema_lookup resC1 none curC1 sgSome).2.2 () rfl⟩

/-- C1: on either path, when the three-way merge outcome equals the current
state, Merge returns no object to write. -/
theorem merge_skips_when_converged (r : Resource) (old : Option Resource) (current : JSON)
    (sg : SchemaGetter) :
    (∀ patch, sg r.gvk = .ok none →
      createThreeWayMergePatch ((old.map (fun o => o.value)).getD (.obj .nil)) r.value current = .ok patch →
      applyMergePatch patch current = current →
      unmarshalUnstructured current = some current →
      r.Merge old current sg = .ok (none, false)) ∧
    (sg r.gvk = .ok (some ()) →
      (match old with
       | some o => removePaths (removedFields o.value r.value) (smdMerge current r.value)
       | none => smdMerge current r.value) = current →
      r.Merge old current sg = .ok (none, true)) := by
  constructor
  · intro patch hsg hpatch happly hum
    have hfree : r.Merge old current sg = r.mergeSchemaFree old current :=
      (merge_schema_lookup r old current sg).2.1 hsg
    rw [hfree]
    unfold Resource.mergeSchemaFree
    cases old with
    | none => simp at hpatch; simp [hpatch, happly, hum]
    | some o => simp at hpatch; simp [hpatch, happly, hum]
  · intro hsg hmerge
    have hty : r.Merge old current sg = r.mergeTyped old current :=
      (merge_schema_lookup r old current sg).2.2 () hsg
    rw [hty]
    unfold Resource.mergeTyped
    cases old with
    | none => simp at hmerge; simp [hmerge]
    | some o => simp at hmerge; simp [hmerge]

/-- C1 (witness): at a concrete converged instance, both paths skip. -/
theorem merge_skips_when_converged_witness :
    createThreeWayMergePatch (.obj .nil) resC1.value curC1 = .ok (.obj .nil) ∧
    applyMergePatch (.obj .nil) curC1 = curC1 ∧
    unmarshalUnstructured curC1 = some curC1 ∧
    Resource.Merge resC1 none curC1 sgNone = .ok (none, false) ∧
    Resource.Merge resC1 none curC1 sgSome = .ok (none, true) :=
  ⟨rfl, rfl, rfl,
    (merge_skips_when_converged resC1 none curC1 sgNone).1 (.obj .nil) rfl rfl rfl rfl,
    (merge_skips_when_converged resC1 none curC1 sgSome).2 rfl rfl⟩

/-- C9: after any reconstituter reconcile pass, queue registration panics
instead of adding a queue. -/
theorem addQueue_rejected_after_reconcile (r : Reconstituter) (env : ReconEnv) (req : NSN)
    (q : Nat) : addQueue (reconstituterReconcile r env req).1 q = none := by
  have h : (reconstituterReconcile r env req).1.started = true := by
    unfold reconstituterReconcile
    cases h2 : env.getComp with
    | error e => cases e <;> simp
    | ok comp =>
      simp only []
      cases h3 : populateCache { r with started := true }.cache { r with started := true }.queues comp comp.previousSynthesis env.listedPrev with
      | error e => simp
      | ok pr =>
        cases h4 : populateCache pr.1 { r with started := true }.queues comp comp.currentSynthesis env.listedCur with
        | error e => simp [h3, h4]
        | ok pc => simp [h3, h4]
  simp [addQueue, h]

/-- A successful unstructured parse returns its input. -/
theorem unmarshal_eq (j j2 : JSON) (h : unmarshalUnstructured j = some j2) : j2 = j := by
  unfold unmarshalUnstructured at h
  cases j with
  | obj fs =>
    simp only [Option.ite_none_right_eq_some, Option.some.injEq] at h
    exact h.2.symm
  | null => exact Option.noConfusion h
  | bool b => exact Option.noConfusion h
  | num n => exact Option.noConfusion h
  | str s => exact Option.noConfusion h
  | arr xs => exact Option.noConfusion h

/-- patchSetsDeletionTimestamp holds exactly when the patch applies to the
placeholder and leaves a nonempty deletionTimestamp string. -/
theorem patchSets_iff (r : Resource) :
    r.patchSetsDeletionTimestamp = true ↔
      ∃ ops patched, r.patch = some ops ∧ applyOps ops patchPlaceholder = some patched ∧
        nestedString ["metadata", "deletionTimestamp"] patched ≠ "" := by
  unfold Resource.patchSetsDeletionTimestamp
  cases hp : r.patch with
  | none => simp
  | some ops =>
    cases ha : applyOps ops patchPlaceholder with
    | none => simp [ha]
    | some patched =>
      cases patched <;> simp [ha, nestedString, getAt]

/-- C4: Deleted holds iff the composition is being deleted without orphaning,
or the manifest is marked deleted, or the resource carries a patch whose
application to the minimal placeholder yields a nonempty
metadata.deletionTimestamp. -/
theorem deleted_characterization (r : Resource) (comp : Composition) :
    r.Deleted comp = true ↔
      (comp.deletionTimestamp.isSome = true ∧ shouldOrphanResources comp = false) ∨
      r.manifestDeleted = true ∨
      (∃ ops patched, r.patch = some ops ∧ applyOps ops patchPlaceholder = some patched ∧
        nestedString ["metadata", "deletionTimestamp"] patched ≠ "") := by
  have himp : (∃ ops patched, r.patch = some ops ∧ applyOps ops patchPlaceholder = some patched ∧
      nestedString ["metadata", "deletionTimestamp"] patched ≠ "") → r.patch.isSome = true := by
    rintro ⟨ops, patched, hops, _, _⟩
    simp [hops]
  unfold Resource.Deleted
  simp only [Bool.or_eq_true, Bool.and_eq_true, Bool.not_eq_true']
  rw [← patchSets_iff] at himp ⊢
  constructor
  · rintro ((h | h) | ⟨h1, h2⟩)
    · exact Or.inl h
    · exact Or.inr (Or.inl h)
    · exact Or.inr (Or.inr h2)
  · rintro (h | h | h)
    · exact Or.inl (Or.inl h)
    · exact Or.inl (Or.inr h)
    · exact Or.inr ⟨himp h, h⟩

/-- C10: NeedsToBePatched is total and false on a nil patch, nil live object
or any patching failure, true exactly when the patched object parses and
differs from the live object. -/
theorem needs_to_be_patched_spec (r : Resource) (current : Option JSON) :
    (r.patch = none → r.NeedsToBePatched current = false) ∧
    (current = none → r.NeedsToBePatched current = false) ∧
    (∀ ops cur, r.patch = some ops → current = some cur → applyOps ops cur = none →
      r.NeedsToBePatched current = false) ∧
    (∀ ops cur pj, r.patch = some ops → current = some cur → applyOps ops cur = some pj →
      unmarshalUnstructured pj = none → r.NeedsToBePatched current = false) ∧
    (r.NeedsToBePatched current = true ↔
      ∃ ops cur patched, r.patch = some ops ∧ current = some cur ∧
        applyOps ops cur = some patched ∧ unmarshalUnstructured patched = some patched ∧
        ¬ patched = cur) := by
  unfold Resource.NeedsToBePatched
  cases hp : r.patch with
  | none => simp
  | some ops =>
    cases hc : current with
    | none => simp
    | some cur =>
      refine ⟨fun h => Option.noConfusion h, fun h => Option.noConfusion h, ?_, ?_, ?_⟩
      · intro ops2 cur2 hops hcur happ
        cases hops; cases hcur
        simp [happ]
      · intro ops2 cur2 pj hops hcur happ hum
        cases hops; cases hcur
        simp [happ, hum]
      · cases happ : applyOps ops cur with
        | none => simp [happ]
        | some pj =>
          cases hum : unmarshalUnstructured pj with
          | none => simp [happ, hum]
          | some patched =>
            have hpe : patched = pj := unmarshal_eq pj patched hum
            subst hpe
            simp only [happ, hum]
            constructor
            · intro h
              exact ⟨ops, cur, patched, rfl, rfl, happ, hum, by simpa using h⟩
            · rintro ⟨a, b, c, ha, hb, hc2, hd, hne⟩
              cases ha; cases hb
              rw [happ] at hc2
              cases hc2
              simpa using hne

/-- C10 (witness): a concrete patch that changes the live object. -/
theorem needs_to_be_patched_witness :
    Resource.NeedsToBePatched resC10 (some curC10) = true :=
  (needs_to_be_patched_spec resC10 (some curC10)).2.2.2.2.mpr
    ⟨patchOpsC10, curC10, patchedC10, rfl, rfl, rfl, rfl, by decide⟩

/-- C5 (counterexample): an invalid reconcile-interval annotation still
parses, but sets ReconcileInterval to a zero-duration pointer where the
annotation-free manifest leaves it unset. -/
theorem reconcile_interval_invalid_cex :
    (NewResource sliceC5 0).map (fun r2 => r2.reconcileInterval) = .ok (some 0) ∧
    (NewResource sliceC5b 0).map (fun r2 => r2.reconcileInterval) = .ok none :=
  ⟨rfl, rfl⟩

/-- Every successful NewResource hashes the raw bytes, interns the stripped
and pruned value, and derives the reconcile interval from the annotation. -/
theorem newResource_ok_fields (slice : ResourceSlice) (i : Nat) (m : ManifestEntry)
    (r : Resource) (hm : slice.resources.get? i = some m)
    (hok : NewResource slice i = .ok r) :
    r.manifestHash = fnv64 (asciiBytes m.raw) ∧ r.value = internedValue m ∧
    r.reconcileInterval = (match lookupStr (manifestAnnos m) reconcileIntervalKey with
      | none => none
      | some str => some ((parseDuration str).getD 0)) := by
  unfold NewResource at hok
  split at hok
  · exact Except.noConfusion hok
  · next m2 heq =>
    rw [hm] at heq
    cases heq
    split at hok
    · exact Except.noConfusion hok
    · next parsed0 hum =>
      have hpp : parsed0 = m.parsed := unmarshal_eq _ _ hum
      subst hpp
      simp only [] at hok
      repeat' split at hok
      all_goals try exact Except.noConfusion hok
      all_goals (have hr := Except.ok.inj hok; subst hr)
      all_goals refine ⟨rfl, rfl, ?_⟩
      all_goals simp only [manifestAnnos, internedBase]
      all_goals simp_all


/-- C5 (amended): when the reconcile-interval annotation is present with a
value that does not parse as a duration, NewResource still succeeds and the
value is ignored except that ReconcileInterval is set to the zero duration
(a non-nil pointer), not left unset. -/
theorem reconcile_interval_invalid_sets_zero (slice : ResourceSlice) (i : Nat)
    (m : ManifestEntry) (v : String) (r : Resource)
    (hm : slice.resources.get? i = some m)
    (hv : lookupStr (manifestAnnos m) reconcileIntervalKey = some v)
    (hparse : parseDuration v = none)
    (hok : NewResource slice i = .ok r) :
    r.reconcileInterval = some 0 := by
  have h := (newResource_ok_fields slice i m r hm hok).2.2
  rw [hv] at h
  simpa [hparse] using h

set_option maxRecDepth 8192 in
/-- C5 (witness): the amended claim at the concrete invalid annotation. -/
theorem reconcile_interval_invalid_witness :
    sliceC5.resources.get? 0 = some manC5 ∧
    lookupStr (manifestAnnos manC5) reconcileIntervalKey = some "zzz" ∧
    parseDuration "zzz" = none ∧
    NewResource sliceC5 0 = .ok rC5 ∧ rC5.reconcileInterval = some 0 :=
  ⟨rfl, rfl, rfl, rfl,
    reconcile_interval_invalid_sets_zero sliceC5 0 manC5 "zzz" rC5 rfl rfl rfl rfl⟩

set_option maxRecDepth 8192 in
/-- C6 (counterexample): two manifests whose parses differ only by a status
field intern to the same value yet carry different manifest hashes, because
the FNV-64 digest is taken over the raw bytes before stripping. -/
theorem manifest_hash_ignores_stripping_cex :
    (NewResource sliceC6a 0).map (fun r2 => r2.value) =
      (NewResource sliceC6b 0).map (fun r2 => r2.value) ∧
    (NewResource sliceC6a 0).map (fun r2 => r2.manifestHash) = .ok 6784669770687647204 ∧
    (NewResource sliceC6b 0).map (fun r2 => r2.manifestHash) = .ok 17839740632956926364 ∧
    (6784669770687647204 : Nat) ≠ 17839740632956926364 :=
  ⟨rfl, rfl, rfl, by decide⟩

/-- C6 (amended): ManifestHash is the FNV-64 digest of the original raw
manifest bytes — computed before any stripping — while status and
creationTimestamp stripping applies to the interned value, so manifests with
equal stripped parses intern equal values regardless of their hashes. -/
theorem manifest_hash_over_raw_bytes (s1 s2 : ResourceSlice) (i1 i2 : Nat)
    (m1 m2 : ManifestEntry) (r1 r2 : Resource)
    (h1 : s1.resources.get? i1 = some m1) (h2 : s2.resources.get? i2 = some m2)
    (hok1 : NewResource s1 i1 = .ok r1) (hok2 : NewResource s2 i2 = .ok r2)
    (hsame : internedBase m1 = internedBase m2) :
    r1.manifestHash = fnv64 (asciiBytes m1.raw) ∧
    r2.manifestHash = fnv64 (asciiBytes m2.raw) ∧
    r1.value = r2.value := by
  obtain ⟨ha1, hv1, -⟩ := newResource_ok_fields s1 i1 m1 r1 h1 hok1
  obtain ⟨ha2, hv2, -⟩ := newResource_ok_fields s2 i2 m2 r2 h2 hok2
  refine ⟨ha1, ha2, ?_⟩
  rw [hv1, hv2]
  unfold internedValue
  rw [hsame]

set_option maxRecDepth 8192 in
/-- C6 (witness): the amended claim at the concrete status-only difference. -/
theorem manifest_hash_over_raw_bytes_witness :
    internedBase manC6a = internedBase manC6b ∧
    NewResource sliceC6a 0 = .ok rC6a ∧ NewResource sliceC6b 0 = .ok rC6b ∧
    (rC6a.manifestHash = fnv64 (asciiBytes manC6a.raw) ∧
      rC6b.manifestHash = fnv64 (asciiBytes manC6b.raw) ∧
      rC6a.value = rC6b.value) :=
  ⟨rfl, rfl, rfl,
    manifest_hash_over_raw_bytes sliceC6a sliceC6b 0 0 manC6a manC6b rC6a rC6b
      rfl rfl rfl rfl rfl⟩

/-- A collected list succeeds only if every element succeeded. -/
theorem collectExcept_ok : ∀ (l : List (Except String Request)) (res : List Request),
    collectExcept l = .ok res → ∀ x ∈ l, x.isOk = true := by
  intro l
  induction l with
  | nil => intro res _ x hx; cases hx
  | cons hd tl ih =>
    intro res hok x hx
    unfold collectExcept at hok
    cases hhd : hd with
    | error e => rw [hhd] at hok; exact Except.noConfusion hok
    | ok r =>
      rw [hhd] at hok
      cases htl : collectExcept tl with
      | error e => rw [htl] at hok; exact Except.noConfusion hok
      | ok rs =>
        cases hx with
        | head => rw [hhd]; rfl
        | tail _ hx2 => exact ih rs htl x hx2

/-- Mapping preserves success. -/
theorem except_map_isOk (x : Except String Resource) (f : Resource → Request) :
    (x.map f).isOk = x.isOk := by
  cases x <;> rfl

/-- A successful per-slice request build means every manifest parsed. -/
theorem sliceRequests_ok (comp : NSN) (sl : ResourceSlice) (reqs : List Request)
    (hok : sliceRequests comp sl = .ok reqs) :
    ∀ i, i < sl.resources.length → (NewResource sl i).isOk = true := by
  intro i hi
  have hmem : ((NewResource sl i).map
      (fun r => (⟨r.ref, r.manifestRef, comp⟩ : Request))) ∈
      (List.range sl.resources.length).map (fun i2 =>
        (NewResource sl i2).map (fun r => (⟨r.ref, r.manifestRef, comp⟩ : Request))) :=
    List.mem_map_of_mem _ (List.mem_range.mpr hi)
  have h2 := collectExcept_ok _ reqs hok _ hmem
  rwa [except_map_isOk] at h2

/-- A successful fill parsed every manifest of every slice. -/
theorem fillRequests_ok : ∀ (comp : NSN) (slices : List ResourceSlice) (reqs : List Request),
    fillRequests comp slices = .ok reqs → ∀ sl ∈ slices, ∀ i, i < sl.resources.length →
      (NewResource sl i).isOk = true := by
  intro comp slices
  induction slices with
  | nil => intro reqs _ sl hsl; cases hsl
  | cons hd tl ih =>
    intro reqs hok sl hsl i hi
    unfold fillRequests at hok
    cases hhd : sliceRequests comp hd with
    | error e => rw [hhd] at hok; exact Except.noConfusion hok
    | ok rs =>
      rw [hhd] at hok
      cases htl : fillRequests comp tl with
      | error e => rw [htl] at hok; exact Except.noConfusion hok
      | ok rest =>
        cases hsl with
        | head => exact sliceRequests_ok comp hd rs hhd i hi
        | tail _ hsl2 => exact ih rest htl sl hsl2 i hi

/-- C7: a listed-slice count different from the recorded ResourceSliceCount
defers: success, no cache fill, nothing enqueued; and work items are
enqueued only when the count matched and every slice of the synthesis
parsed. -/
theorem populate_cache_stale_informer (cache : CacheState) (queues : List Nat)
    (comp : Composition) (s : Synthesis) (n : Int) (listed : List ResourceSlice)
    (hn : s.resourceSliceCount = some n) :
    ((listed.length : Int) ≠ n → populateCache cache queues comp (some s) listed = .ok (cache, [])) ∧
    (∀ c2 out, populateCache cache queues comp (some s) listed = .ok (c2, out) → out ≠ [] →
      (listed.length : Int) = n ∧
      ∀ sl ∈ listed, ∀ i, i < sl.resources.length → (NewResource sl i).isOk = true) := by
  simp only [populateCache]
  rw [hn]
  constructor
  · intro hne
    by_cases hhas : cacheHasSynthesis cache comp.nsn s
    · simp [hhas]
    · simp [hhas, hne]
  · intro c2 out hpc hout
    by_cases hhas : cacheHasSynthesis cache comp.nsn s
    · simp [hhas] at hpc
      exact absurd hpc.2 hout
    · by_cases hne : (listed.length : Int) ≠ n
      · simp [hhas, hne] at hpc
        exact absurd hpc.2 hout
      · push_neg at hne
        refine ⟨hne, ?_⟩
        simp only [hhas, hne] at hpc
        cases hcf : cacheFill cache comp.nsn s listed with
        | error e => simp [hcf] at hpc
        | ok pr =>
          unfold cacheFill at hcf
          cases hfr : fillRequests comp.nsn listed with
          | error e => rw [hfr] at hcf; exact Except.noConfusion hcf
          | ok reqs0 => exact fillRequests_ok comp.nsn listed reqs0 hfr

/-- C7 (witness): the concrete stale listing defers without enqueuing. -/
theorem populate_cache_stale_informer_witness :
    synC7.resourceSliceCount = some 2 ∧ ((listedC7.length : Int) ≠ 2) ∧
    populateCache ⟨[]⟩ [0] compC7 (some synC7) listedC7 = .ok (⟨[]⟩, []) :=
  ⟨rfl, by decide,
    (populate_cache_stale_informer ⟨[]⟩ [0] compC7 synC7 2 listedC7 rfl).1 (by decide)⟩

/-- With no transient read failures, a missing slice makes the loop stop at
a missing slice. -/
theorem sliceLoop_missing (env : SliceEnv) : ∀ (l : List String),
    (∀ nm ∈ l, ∀ e, env.getSlice nm ≠ .error (.other e)) →
    (∃ nm ∈ l, env.getSlice nm = .error .notFound) →
    ∃ nm, sliceLoop env l = .missing nm := by
  intro l
  induction l with
  | nil => rintro _ ⟨nm, hnm, _⟩; cases hnm
  | cons hd tl ih =>
    rintro hno ⟨nm, hnm, hmiss⟩
    unfold sliceLoop
    cases hhd : env.getSlice hd with
    | error ge =>
      cases ge with
      | notFound => exact ⟨hd, rfl⟩
      | other e => exact absurd hhd (hno hd (List.mem_cons_self hd tl) e)
    | ok u =>
      have htl : ∃ nm2 ∈ tl, env.getSlice nm2 = .error .notFound := by
        cases hnm with
        | head => rw [hhd] at hmiss; exact Except.noConfusion hmiss
        | tail _ h2 => exact ⟨nm, h2, hmiss⟩
      obtain ⟨nm2, h3⟩ := ih (fun x hx e => hno x (List.mem_cons_of_mem hd hx) e) htl
      exact ⟨nm2, h3⟩

/-- C8: one slice-controller pass writes at most one status change; an
ineligible composition gets no write; an eligible one whose referenced
slices read back without transient errors gets exactly the
PendingResynthesis write when some slice is missing. -/
theorem slice_controller_forces_resynthesis (env : SliceEnv) (now : Nat)
    (comp : Composition) (syn : Synthesizer)
    (hc : env.getComp = .ok comp) (hs : env.getSynth = .ok syn) :
    (sliceControllerReconcile env now).statusWrites.length ≤ 1 ∧
    (comp.NotEligibleForResynthesis syn = true →
      (sliceControllerReconcile env now).statusWrites = []) ∧
    (comp.NotEligibleForResynthesis syn = false →
      (∀ nm ∈ (comp.currentSynthesis.map (fun s => s.resourceSlices)).getD [],
        ∀ e, env.getSlice nm ≠ .error (.other e)) →
      (∃ nm ∈ (comp.currentSynthesis.map (fun s => s.resourceSlices)).getD [],
        env.getSlice nm = .error .notFound) →
      (sliceControllerReconcile env now).statusWrites =
        [{ comp with pendingResynthesis := some now }]) := by
  unfold sliceControllerReconcile
  rw [hc, hs]
  refine ⟨?_, ?_, ?_⟩
  · by_cases hel : comp.NotEligibleForResynthesis syn
    · simp [hel]
    · simp only [Bool.not_eq_true] at hel
      simp only [hel]
      cases hl : sliceLoop env ((comp.currentSynthesis.map (fun s => s.resourceSlices)).getD []) <;> simp
  · intro hel
    simp [hel]
  · intro hel hno hmiss
    simp only [hel]
    obtain ⟨nm, hnm⟩ := sliceLoop_missing env _ hno hmiss
    rw [hnm]
    simp

/-- C8 (witness): the concrete eligible composition with a deleted slice
gets exactly the PendingResynthesis status write. -/
theorem slice_controller_forces_resynthesis_witness :
    envC8.getComp = .ok compC8 ∧ envC8.getSynth = .ok synthC8 ∧
    compC8.NotEligibleForResynthesis synthC8 = false ∧
    (sliceControllerReconcile envC8 5).statusWrites =
      [{ compC8 with pendingResynthesis := some 5 }] :=
  ⟨rfl, rfl, rfl,
    (slice_controller_forces_resynthesis envC8 5 compC8 synthC8 rfl rfl).2.2 rfl
      (fun nm hnm e h => GetErr.noConfusion (Except.error.inj h))
      ⟨"sl-x", by simp [compC8, synthesisC8], rfl⟩⟩

/-- Erasing one key: lookups of that key die, others pass through. -/
theorem lookup_erase : ∀ (fs : JFields) (k k2 : String),
    lookupField (eraseField fs k) k2 = if k2 = k then none else lookupField fs k2
  | .nil, k, k2 => by simp [eraseField, lookupField]
  | .cons key v tl, k, k2 => by
    simp only [eraseField, lookupField]
    by_cases h1 : key = k <;> by_cases h2 : k2 = k <;> by_cases h3 : key = k2 <;>
      simp_all [lookup_erase tl k k2, lookup_erase tl k k, lookupField]

/-- Removing below one key: lookups of that key see the removal, others pass
through. -/
theorem lookup_removeInFields : ∀ (fs : JFields) (key : String) (rest : List String) (k2 : String),
    lookupField (removeInFields key rest fs) k2 =
      if k2 = key then (lookupField fs k2).map (removePath rest) else lookupField fs k2
  | .nil, key, rest, k2 => by simp [removeInFields, lookupField]
  | .cons k v tl, key, rest, k2 => by
    simp only [removeInFields]
    by_cases h1 : k = key <;> by_cases h2 : k2 = key <;> by_cases h3 : k = k2 <;>
      simp_all [lookup_removeInFields tl key rest k2, lookup_removeInFields tl key rest key, lookupField]

/-- Removing the empty path is the identity. -/
theorem removePath_nil (j : JSON) : removePath [] j = j := by cases j <;> rfl

/-- A removed path is dead: navigation along any extension of it fails. -/
theorem getAt_removePath_dead : ∀ (q p : List String) (j : JSON), q ≠ [] →
    q.IsPrefix p → getAt p (removePath q j) = none
  | [], _, _, h, _ => absurd rfl h
  | [k], p, j, _, hpre => by
    obtain ⟨t, ht⟩ := hpre
    subst ht
    cases j <;> simp [removePath, getAt, lookup_erase]
  | k :: k2 :: q3, p, j, _, hpre => by
    obtain ⟨t, ht⟩ := hpre
    subst ht
    cases j with
    | obj fs =>
      rw [show (k :: k2 :: q3) ++ t = k :: ((k2 :: q3) ++ t) from rfl]
      simp only [removePath, getAt, lookup_removeInFields, if_pos rfl]
      cases hlf : lookupField fs k with
      | none => simp
      | some v =>
        simpa using getAt_removePath_dead (k2 :: q3) ((k2 :: q3) ++ t) v (by simp) ⟨t, rfl⟩
    | null => simp [removePath, getAt]
    | bool b => simp [removePath, getAt]
    | num n => simp [removePath, getAt]
    | str s => simp [removePath, getAt]
    | arr xs => simp [removePath, getAt]

/-- Removing an unrelated path leaves navigability unchanged. -/
theorem getAt_isSome_removePath : ∀ (q p : List String) (j : JSON), ¬ q.IsPrefix p →
    (getAt p (removePath q j)).isSome = (getAt p j).isSome
  | [], p, _, hpre => absurd List.nil_prefix hpre
  | [k], p, j, hpre => by
    cases p with
    | nil => cases j <;> simp [removePath, getAt]
    | cons k2 p2 =>
      have hk : k2 ≠ k := fun h => hpre (by rw [h]; exact ⟨p2, rfl⟩)
      cases j with
      | obj fs => simp [removePath, getAt, lookup_erase, hk]
      | null => simp [removePath]
      | bool b => simp [removePath]
      | num n => simp [removePath]
      | str s => simp [removePath]
      | arr xs => simp [removePath]
  | k :: k2 :: q3, p, j, hpre => by
    cases p with
    | nil => cases j <;> simp [removePath, getAt]
    | cons kp p2 =>
      by_cases hk : kp = k
      · subst hk
        have hpre2 : ¬ (k2 :: q3).IsPrefix p2 := by
          intro h2
          obtain ⟨t, ht⟩ := h2
          exact hpre ⟨t, by rw [← ht]; rfl⟩
        cases j with
        | obj fs =>
          simp only [removePath, getAt, lookup_removeInFields, if_pos rfl]
          cases hlf : lookupField fs kp with
          | none => simp
          | some v => simp [getAt_isSome_removePath (k2 :: q3) p2 v hpre2]
        | null => simp [removePath]
        | bool b => simp [removePath]
        | num n => simp [removePath]
        | str s => simp [removePath]
        | arr xs => simp [removePath]
      · cases j with
        | obj fs => simp [removePath, getAt, lookup_removeInFields, hk]
        | null => simp [removePath]
        | bool b => simp [removePath]
        | num n => simp [removePath]
        | str s => simp [removePath]
        | arr xs => simp [removePath]

/-- Path removal never creates fields. -/
theorem isFieldAt_removePath_mono (q p : List String) (j : JSON)
    (h : isFieldAt p (removePath q j) = true) : isFieldAt p j = true := by
  by_cases hq : q = []
  · subst hq; rwa [removePath_nil] at h
  · by_cases hpre : q.IsPrefix p
    · have h2 := getAt_removePath_dead q p j hq hpre
      unfold isFieldAt at h
      rw [h2] at h
      simp at h
    · unfold isFieldAt at h ⊢
      rwa [getAt_isSome_removePath q p j hpre] at h

/-- A set of removals never creates fields. -/
theorem isFieldAt_removePaths_false : ∀ (ps : List (List String)) (j : JSON) (p : List String),
    isFieldAt p j = false → isFieldAt p (removePaths ps j) = false := by
  intro ps
  induction ps with
  | nil => intro j p h; exact h
  | cons q ps2 ih =>
    intro j p h
    show isFieldAt p (removePaths ps2 (removePath q j)) = false
    apply ih
    cases hfa : isFieldAt p (removePath q j)
    · rfl
    · exact absurd (isFieldAt_removePath_mono q p j hfa) (by simp [h])

/-- Every (nonempty) path in the removal set is gone afterwards. -/
theorem isFieldAt_removePaths_mem : ∀ (ps : List (List String)) (j : JSON) (p : List String),
    p ∈ ps → p ≠ [] → isFieldAt p (removePaths ps j) = false := by
  intro ps
  induction ps with
  | nil => intro j p h; cases h
  | cons q ps2 ih =>
    intro j p hmem hne
    show isFieldAt p (removePaths ps2 (removePath q j)) = false
    rcases List.mem_cons.mp hmem with rfl | h2
    · apply isFieldAt_removePaths_false
      unfold isFieldAt
      rw [getAt_removePath_dead p p j hne (List.prefix_refl p)]
      simp
    · exact ih (removePath q j) p h2 hne

/-- Fields under no removed path are untouched. -/
theorem isFieldAt_removePaths_preserve : ∀ (ps : List (List String)) (j : JSON) (p : List String),
    (∀ q ∈ ps, ¬ q.IsPrefix p) → isFieldAt p (removePaths ps j) = isFieldAt p j := by
  intro ps
  induction ps with
  | nil => intro j p _; rfl
  | cons q ps2 ih =>
    intro j p h
    show isFieldAt p (removePaths ps2 (removePath q j)) = isFieldAt p j
    rw [ih (removePath q j) p (fun x hx => h x (List.mem_cons_of_mem q hx))]
    unfold isFieldAt
    rw [getAt_isSome_removePath q p j (h q (List.mem_cons_self q ps2))]

/-- Values looked up in a well-formed field list are well-formed. -/
theorem wf_lookup : ∀ (fs : JFields) (k : String) (v : JSON), wfFields fs = true →
    lookupField fs k = some v → wfValue v = true
  | .nil, _, _, _, h => Option.noConfusion h
  | .cons k0 v0 tl, k, v, hwf, h => by
    simp only [wfFields, Bool.and_eq_true] at hwf
    simp only [lookupField] at h
    split at h
    · cases h; exact hwf.1.2
    · exact wf_lookup tl k v hwf.2 h

/-- Field navigation through one looked-up key. -/
theorem isFieldAt_cons_lookup (k : String) (rest : List String) (fs : JFields) (v : JSON)
    (h : lookupField fs k = some v) :
    isFieldAt (k :: rest) (.obj fs) = (getAt rest v).isSome := by
  simp [isFieldAt, getAt, h]

/-- Field navigation dies on a missing key. -/
theorem isFieldAt_cons_none (k : String) (rest : List String) (fs : JFields)
    (h : lookupField fs k = none) : isFieldAt (k :: rest) (.obj fs) = false := by
  simp [isFieldAt, getAt, h]

/-- On nonempty paths, field existence is navigability. -/
theorem isFieldAt_ne_nil (rest : List String) (x : JSON) (h : rest ≠ []) :
    isFieldAt rest x = (getAt rest x).isSome := by
  cases rest with
  | nil => exact absurd rfl h
  | cons r rs => simp [isFieldAt]

/-- Object navigation through one looked-up key. -/
theorem isObjAt_cons (k : String) (q : List String) (fs : JFields) (v : JSON)
    (h : lookupField fs k = some v) : isObjAt (k :: q) (.obj fs) = isObjAt q v := by
  simp [isObjAt, getAt, h]

/-- A value with a field is an object. -/
theorem isFieldAt_obj_shape (k : String) (rest : List String) (o : JSON)
    (h : isFieldAt (k :: rest) o = true) : ∃ of, o = .obj of := by
  cases o <;> first
    | exact ⟨_, rfl⟩
    | simp [isFieldAt, getAt] at h

/-- A value that is an object at the root is an object. -/
theorem isObjAt_nil_shape (n : JSON) (h : isObjAt [] n = true) : ∃ nf, n = .obj nf := by
  cases n <;> first
    | exact ⟨_, rfl⟩
    | simp [isObjAt, getAt] at h

/-- Membership in the removed set decomposes along the first key (for
well-formed old fields). -/
theorem removedInFields_mem_elim : ∀ (of nf : JFields) (p : List String),
    wfFields of = true → p ∈ removedInFields of nf →
    ∃ k rest v, p = k :: rest ∧ lookupField of k = some v ∧
      ((rest = [] ∧ lookupField nf k = none) ∨
       (∃ nv, lookupField nf k = some nv ∧ rest ∈ removedFields v nv))
  | .nil, nf, p, _, h => absurd h (by simp [removedInFields])
  | .cons k0 v0 tl, nf, p, hwf, h => by
    simp only [wfFields, Bool.and_eq_true] at hwf
    simp only [removedInFields] at h
    rw [List.mem_append] at h
    rcases h with h | h
    · cases hlf : lookupField nf k0 with
      | none =>
        rw [hlf] at h
        simp at h
        exact ⟨k0, [], v0, h, by simp [lookupField], Or.inl ⟨rfl, hlf⟩⟩
      | some nv =>
        rw [hlf] at h
        rw [List.mem_map] at h
        obtain ⟨rest, hrest, hp⟩ := h
        exact ⟨k0, rest, v0, hp.symm, by simp [lookupField], Or.inr ⟨nv, hlf, hrest⟩⟩
    · obtain ⟨k, rest, v, hp, hlook, hor⟩ := removedInFields_mem_elim tl nf p hwf.2 h
      have hk : ¬ k0 = k := by
        intro he
        subst he
        rw [hlook] at hwf
        simp at hwf
      refine ⟨k, rest, v, hp, ?_, hor⟩
      rw [lookupField, if_neg hk]
      exact hlook

/-- Introduction for membership in the removed set. -/
theorem removedInFields_mem_intro : ∀ (of nf : JFields) (k : String) (rest : List String)
    (v : JSON), lookupField of k = some v →
    ((rest = [] ∧ lookupField nf k = none) ∨
     (∃ nv, lookupField nf k = some nv ∧ rest ∈ removedFields v nv)) →
    (k :: rest) ∈ removedInFields of nf
  | .nil, _, _, _, _, h, _ => Option.noConfusion h
  | .cons k0 v0 tl, nf, k, rest, v, hlook, hor => by
    simp only [removedInFields]
    rw [List.mem_append]
    simp only [lookupField] at hlook
    by_cases hk : k0 = k
    · rw [if_pos hk] at hlook
      cases hlook
      subst hk
      left
      rcases hor with ⟨hrest, hnone⟩ | ⟨nv, hnv, hrest⟩
      · subst hrest
        rw [hnone]
        simp
      · rw [hnv]
        rw [List.mem_map]
        exact ⟨rest, hrest, rfl⟩
    · rw [if_neg hk] at hlook
      right
      exact removedInFields_mem_intro tl nf k rest v hlook hor

/-- Soundness of the removed set: every removed path is a field of old and
not a field of new (for a well-formed old value). -/
theorem removedFields_sound : ∀ (p : List String) (o n : JSON), wfValue o = true →
    p ∈ removedFields o n → isFieldAt p o = true ∧ isFieldAt p n = false := by
  intro p
  induction p with
  | nil =>
    intro o n hwf hmem
    cases o with
    | obj of =>
      cases n with
      | obj nf =>
        obtain ⟨k, rest, v, hp, _, _⟩ := removedInFields_mem_elim of nf [] hwf hmem
        exact List.noConfusion hp
      | null => simp [removedFields] at hmem
      | bool b => simp [removedFields] at hmem
      | num m => simp [removedFields] at hmem
      | str s => simp [removedFields] at hmem
      | arr xs => simp [removedFields] at hmem
    | null => simp [removedFields] at hmem
    | bool b => simp [removedFields] at hmem
    | num m => simp [removedFields] at hmem
    | str s => simp [removedFields] at hmem
    | arr xs => simp [removedFields] at hmem
  | cons k rest ih =>
    intro o n hwf hmem
    cases o with
    | obj of =>
      cases n with
      | obj nf =>
        obtain ⟨k2, rest2, v, hp, hlook, hor⟩ :=
          removedInFields_mem_elim of nf (k :: rest) hwf hmem
        injection hp with hk2 hrest2
        subst hk2
        subst hrest2
        rcases hor with ⟨hre, hnone⟩ | ⟨nv, hnv, hrest⟩
        · subst hre
          exact ⟨by simp [isFieldAt, getAt, hlook], isFieldAt_cons_none k [] nf hnone⟩
        · have hwfv : wfValue v = true := wf_lookup of k v hwf hlook
          obtain ⟨h1, h2⟩ := ih v nv hwfv hrest
          have hne : rest ≠ [] := by
            intro he
            subst he
            simp [isFieldAt] at h1
          constructor
          · rw [isFieldAt_cons_lookup k rest of v hlook, ← isFieldAt_ne_nil rest v hne]
            exact h1
          · rw [isFieldAt_cons_lookup k rest nf nv hnv, ← isFieldAt_ne_nil rest nv hne]
            exact h2
      | null => simp [removedFields] at hmem
      | bool b => simp [removedFields] at hmem
      | num m => simp [removedFields] at hmem
      | str s => simp [removedFields] at hmem
      | arr xs => simp [removedFields] at hmem
    | null => simp [removedFields] at hmem
    | bool b => simp [removedFields] at hmem
    | num m => simp [removedFields] at hmem
    | str s => simp [removedFields] at hmem
    | arr xs => simp [removedFields] at hmem

/-- Completeness of the removed set: a field of old that is not a field of
new, all of whose proper prefixes are objects on both sides, is removed. -/
theorem removedFields_complete : ∀ (p : List String) (o n : JSON),
    isFieldAt p o = true → isFieldAt p n = false →
    (∀ q, q.IsPrefix p → q ≠ p → isObjAt q o = true ∧ isObjAt q n = true) →
    p ∈ removedFields o n := by
  intro p
  induction p with
  | nil => intro o n h1 _ _; simp [isFieldAt] at h1
  | cons k rest ih =>
    intro o n h1 h2 hq
    obtain ⟨of, rfl⟩ := isFieldAt_obj_shape k rest o h1
    obtain ⟨nf, rfl⟩ := isObjAt_nil_shape n (hq [] List.nil_prefix (by simp)).2
    cases hlf : lookupField of k with
    | none => rw [isFieldAt_cons_none k rest of hlf] at h1; exact Bool.noConfusion h1
    | some v =>
      show (k :: rest) ∈ removedFields (.obj of) (.obj nf)
      simp only [removedFields]
      cases hnf : lookupField nf k with
      | none =>
        have hre : rest = [] := by
          cases rest with
          | nil => rfl
          | cons r rs =>
            have hob := (hq [k] ⟨r :: rs, rfl⟩ (by simp)).2
            simp [isObjAt, getAt, hnf] at hob
        subst hre
        exact removedInFields_mem_intro of nf k [] v hlf (Or.inl ⟨rfl, hnf⟩)
      | some nv =>
        have hne : rest ≠ [] := by
          intro he
          subst he
          rw [isFieldAt_cons_lookup k [] nf nv hnf] at h2
          simp [getAt] at h2
        apply removedInFields_mem_intro of nf k rest v hlf
        refine Or.inr ⟨nv, hnf, ?_⟩
        apply ih v nv
        · rw [isFieldAt_cons_lookup k rest of v hlf] at h1
          rwa [isFieldAt_ne_nil rest v hne]
        · rw [isFieldAt_cons_lookup k rest nf nv hnf] at h2
          rwa [isFieldAt_ne_nil rest nv hne]
        · intro q hpre hqne
          have h3 := hq (k :: q)
            (by obtain ⟨t, ht⟩ := hpre; exact ⟨t, by rw [← ht]; rfl⟩)
            (by intro hh; injection hh with _ h4; exact hqne h4)
          rw [isObjAt_cons k q of v hlf] at h3
          rw [isObjAt_cons k q nf nv hnf] at h3
          exact h3

/-- Removed paths are nonempty. -/
theorem removedFields_ne_nil (p : List String) (o n : JSON) (hwf : wfValue o = true)
    (hmem : p ∈ removedFields o n) : p ≠ [] := by
  intro he
  subst he
  have h := (removedFields_sound [] o n hwf hmem).1
  simp [isFieldAt] at h

/-- C3: on the schema-aware path with a previous Resource present, Merge
prunes from (new merged onto current) exactly the field paths present in
old but absent in new: the pruned paths are precisely characterized, every
pruned path is absent from the result, and every path under no pruned path
is untouched. -/
theorem merge_prunes_exactly_removed (r o : Resource) (current : JSON) (sg : SchemaGetter)
    (hsg : sg r.gvk = .ok (some ()))
    (hwf : wfValue o.value = true) :
    (r.Merge (some o) current sg =
      if removePaths (removedFields o.value r.value) (smdMerge current r.value) = current
      then .ok (none, true)
      else .ok (some (removePaths (removedFields o.value r.value) (smdMerge current r.value)), true)) ∧
    (∀ p ∈ removedFields o.value r.value,
      isFieldAt p o.value = true ∧ isFieldAt p r.value = false) ∧
    (∀ p, isFieldAt p o.value = true → isFieldAt p r.value = false →
      (∀ q, q.IsPrefix p → q ≠ p → isObjAt q o.value = true ∧ isObjAt q r.value = true) →
      p ∈ removedFields o.value r.value) ∧
    (∀ p ∈ removedFields o.value r.value,
      isFieldAt p (removePaths (removedFields o.value r.value) (smdMerge current r.value)) = false) ∧
    (∀ p, (∀ q ∈ removedFields o.value r.value, ¬ q.IsPrefix p) →
      isFieldAt p (removePaths (removedFields o.value r.value) (smdMerge current r.value)) =
        isFieldAt p (smdMerge current r.value)) := by
  refine ⟨?_, ?_, ?_, ?_, ?_⟩
  · rw [(merge_schema_lookup r (some o) current sg).2.2 () hsg]
    rfl
  · intro p hp
    exact removedFields_sound p o.value r.value hwf hp
  · intro p h1 h2 h3
    exact removedFields_complete p o.value r.value h1 h2 h3
  · intro p hp
    exact isFieldAt_removePaths_mem _ _ p hp (removedFields_ne_nil p o.value r.value hwf hp)
  · intro p hnp
    exact isFieldAt_removePaths_preserve _ _ p hnp

/-- C3 (witness): retracting spec.a leaves the foreign field and removes
exactly spec.a. -/
theorem merge_prunes_exactly_removed_witness :
    sgSome newC3.gvk = .ok (some ()) ∧ wfValue oldC3.value = true ∧
    removedFields oldC3.value newC3.value = [["spec", "a"]] ∧
    newC3.Merge (some oldC3) curC3 sgSome =
      .ok (some (mkObj [("apiVersion", .str "v1"), ("kind", .str "ConfigMap"),
        ("spec", mkObj [("b", .num 2), ("foreign", .bool true)])]), true) :=
  ⟨rfl, rfl, rfl,
    ((merge_prunes_exactly_removed newC3 oldC3 curC3 sgSome rfl rfl).1).trans
      (if_neg (by decide))⟩

end Eno
